import Mathlib

/-!
# Verification of the vessel_tool skeleton-to-tree decomposition

A shallow embedding of `src/vessel_tool/tree.py` (class `VesselTree`) and the
relevant part of `src/vessel_tool/main.py`.  Python dicts representing tree
nodes become the inductive type `BloodTree`; the numpy `grades` array becomes
an overwrite list read through `lookupGrade`; the BFS work queue becomes an
explicit list; recursion is expressed with explicit fuel so that every
definition is executable and kernel-reducible, with ample fuel supplied by
wrappers.  Fallible code paths (Python exceptions such as `np.argmax` on an
empty list or out-of-range list indexing) are modelled with `Option`.
-/

namespace VesselTool

/-- Integer voxel coordinate `(x, y, z)`. -/
abbrev Pt : Type := ℤ × ℤ × ℤ

/-- A `(point, parent)` pair as recorded during labeling. -/
abbrev PPair : Type := Pt × Pt

/-- The 26 neighbor offsets, in the exact enumeration order of the
`directions` list in `label_vessel_grades` (`tree.py` lines 29-33). -/
def directions : List Pt :=
  [(-1, 0, 0), (1, 0, 0), (0, -1, 0), (0, 1, 0), (0, 0, -1),
   (0, 0, 1), (-1, -1, 0), (-1, 1, 0), (1, -1, 0), (1, 1, 0),
   (-1, 0, -1), (-1, 0, 1), (1, 0, -1), (1, 0, 1), (0, -1, -1),
   (0, -1, 1), (0, 1, -1), (0, 1, 1), (-1, -1, -1), (-1, -1, 1),
   (-1, 1, -1), (-1, 1, 1), (1, -1, -1), (1, 1, -1), (1, -1, 1), (1, 1, 1)]

/-- Grid shape, numpy `vessel_data.shape`. -/
abbrev Shape : Type := ℕ × ℕ × ℕ

/-- Component-wise addition `nx, ny, nz = x + dx, y + dy, z + dz`. -/
def addPt (p d : Pt) : Pt := (p.1 + d.1, p.2.1 + d.2.1, p.2.2 + d.2.2)

/-- The bounds check `0 <= nx < shape[0] and ...` of the traversal loop. -/
def inBoundsB (sh : Shape) (p : Pt) : Bool :=
  (0 ≤ p.1 && p.1 < (sh.1 : ℤ)) && (0 ≤ p.2.1 && p.2.1 < (sh.2.1 : ℤ)) &&
    (0 ≤ p.2.2 && p.2.2 < (sh.2.2 : ℤ))

/-- The `grades` array, as an overwrite list: the most recent write comes
first, and a voxel that was never written reads 0 (numpy `np.zeros`). -/
abbrev Grades : Type := List (Pt × ℕ)

/-- Read a voxel of the `grades` array. -/
def lookupGrade (g : Grades) (p : Pt) : ℕ :=
  match g with
  | [] => 0
  | (q, v) :: rest => if q = p then v else lookupGrade rest p

/-- A BFS queue entry `(位置, 等级, 前一个点)`: position, grade, previous point. -/
abbrev QEntry : Type := Pt × ℕ × Pt

/-- A recorded entry of `point_list_with_prior`: assigned grade together with
the `(point, parent)` pair. -/
abbrev PairRec : Type := ℕ × PPair

/-- Result of scanning the 26 neighbors of one dequeued voxel. -/
structure NbrStep where
  grades : Grades
  queueAdd : List QEntry
  pairsAdd : List PairRec
  connections : ℕ

/-- The inner `for dx, dy, dz in directions` loop of `label_vessel_grades`:
each in-bounds, masked, unlabeled neighbor is counted in `connections`,
labeled `current_grade + 1 if connections > 1 else current_grade`, enqueued,
and recorded with its parent. -/
def processNeighbors (sh : Shape) (mask : Pt → Bool) (pos : Pt) (cg : ℕ) :
    List Pt → Grades → ℕ → NbrStep
  | [], g, c => ⟨g, [], [], c⟩
  | d :: ds, g, c =>
    let n := addPt pos d
    if inBoundsB sh n && mask n && (lookupGrade g n == 0) then
      let ng := if c + 1 > 1 then cg + 1 else cg
      let rest := processNeighbors sh mask pos cg ds ((n, ng) :: g) (c + 1)
      ⟨rest.grades, (n, ng, pos) :: rest.queueAdd, (ng, n, pos) :: rest.pairsAdd,
        rest.connections⟩
    else
      processNeighbors sh mask pos cg ds g c

/-- The `while queue` loop of `label_vessel_grades`, with explicit fuel.
Returns the final grades and the flat list of recorded `(grade, point,
parent)` entries in recording order. -/
def labelGo (sh : Shape) (mask : Pt → Bool) : ℕ → List QEntry → Grades →
    Grades × List PairRec
  | 0, _, g => (g, [])
  | _ + 1, [], g => (g, [])
  | fuel + 1, (pos, cg, _) :: rest, g =>
    let st := processNeighbors sh mask pos cg directions g 0
    let out := labelGo sh mask fuel (rest ++ st.queueAdd) st.grades
    (out.1, st.pairsAdd ++ out.2)

/-- Number of voxels of the grid; an upper bound on queue insertions. -/
def cellCount (sh : Shape) : ℕ := sh.1 * sh.2.1 * sh.2.2

/-- The BFS phase of `label_vessel_grades`: grades initialized with the start
voxel at grade 1, queue seeded with `(start_point, 1, (-1, -1, -1))`. -/
def labelPairs (sh : Shape) (mask : Pt → Bool) (start : Pt) :
    Grades × List PairRec :=
  labelGo sh mask (cellCount sh + 1) [(start, 1, (-1, -1, -1))] [(start, 1)]

/-- Append one recorded pair under its grade key, preserving the Python dict
semantics of `point_list_with_prior` (insertion-ordered keys). -/
def addToGroup (gs : List (ℕ × List PPair)) (k : ℕ) (pr : PPair) :
    List (ℕ × List PPair) :=
  match gs with
  | [] => [(k, [pr])]
  | (k', l) :: rest =>
    if k' = k then (k', l ++ [pr]) :: rest else (k', l) :: addToGroup rest k pr

/-- Group the recorded pairs by grade, as `point_list_with_prior` does. -/
def groupPairs (l : List PairRec) : List (ℕ × List PPair) :=
  l.foldl (fun gs kp => addToGroup gs kp.1 kp.2) []

/-- One scan of `_get_all_segments`' inner `for i, point_pair` loop: find the
first unread pair whose point matches the segment tail's parent (append) or
whose parent matches the segment head's point (prepend); `none` when no
unread pair matches. -/
def scanExtend : List PPair → List Bool → List PPair →
    Option (List Bool × List PPair)
  | [], _, _ => none
  | _ :: _, [], _ => none
  | pr :: prs, r :: rs, seg =>
    if r then (scanExtend prs rs seg).map (fun q => (r :: q.1, q.2))
    else if pr.1 = (seg.getLastD default).2 then some (true :: rs, seg ++ [pr])
    else if pr.2 = (seg.headD default).1 then some (true :: rs, pr :: seg)
    else (scanExtend prs rs seg).map (fun q => (r :: q.1, q.2))

/-- Repeat `scanExtend` until no match remains (the `find_flag` loop of
`_get_all_segments`). -/
def extendLoop : ℕ → List PPair → List Bool → List PPair →
    List Bool × List PPair
  | 0, _, rs, seg => (rs, seg)
  | f + 1, pairs, rs, seg =>
    match scanExtend pairs rs seg with
    | none => (rs, seg)
    | some (rs', seg') => extendLoop f pairs rs' seg'

/-- Seed a new segment from the first unread pair (`if readed[i] == 1:
continue ... break` seeding pass). -/
def seedSeg : List PPair → List Bool → Option (List Bool × PPair)
  | [], _ => none
  | _ :: _, [] => none
  | pr :: prs, r :: rs =>
    if r then (seedSeg prs rs).map (fun q => (r :: q.1, q.2))
    else some (true :: rs, pr)

/-- The `while sum(readed) < len(...)` loop of `_get_all_segments` for one
generation: repeatedly seed a segment and extend it greedily. -/
def segsLoop : ℕ → List PPair → List Bool → List (List PPair)
  | 0, _, _ => []
  | f + 1, pairs, rs =>
    match seedSeg pairs rs with
    | none => []
    | some (rs', seed) =>
      let ex := extendLoop (pairs.length + 1) pairs rs' [seed]
      ex.2 :: segsLoop f pairs ex.1

/-- `_get_all_segments`: per generation, partition the recorded pairs into
greedily assembled chains. -/
def getAllSegments (groups : List (ℕ × List PPair)) :
    List (ℕ × List (List PPair)) :=
  groups.map (fun g => (g.1, segsLoop (g.2.length + 1) g.2 (g.2.map (fun _ => false))))

/-- `label_vessel_grades`: BFS labeling followed by segment assembly. -/
def label_vessel_grades (sh : Shape) (mask : Pt → Bool) (start : Pt) :
    Grades × List (ℕ × List (List PPair)) :=
  let lp := labelPairs sh mask start
  (lp.1, getAllSegments (groupPairs lp.2))

/-! ## The tree data model

The Python dict `{"line": ..., "subtree": ..., "deep": ..., "subLength": ...,
"dividePointIndex": ..., "layer": ...}` becomes the inductive `BloodTree`. -/

/-- A vessel tree node. -/
inductive BloodTree : Type where
  | mk (line : List PPair) (subtree : List BloodTree) (deep : List ℕ)
      (subLength : List ℕ) (dividePointIndex : List ℕ) (layer : ℕ) : BloodTree

/-- The `line` field. -/
def BloodTree.line : BloodTree → List PPair
  | .mk l _ _ _ _ _ => l

/-- The `subtree` field. -/
def BloodTree.subtree : BloodTree → List BloodTree
  | .mk _ s _ _ _ _ => s

/-- The `deep` field. -/
def BloodTree.deep : BloodTree → List ℕ
  | .mk _ _ d _ _ _ => d

/-- The `subLength` field. -/
def BloodTree.subLength : BloodTree → List ℕ
  | .mk _ _ _ sl _ _ => sl

/-- The `dividePointIndex` field. -/
def BloodTree.dividePointIndex : BloodTree → List ℕ
  | .mk _ _ _ _ dv _ => dv

/-- The `layer` field. -/
def BloodTree.layer : BloodTree → ℕ
  | .mk _ _ _ _ _ ly => ly

/-- Accumulator of `np.argmax` over a list of naturals: carries the running
best value, its index, and the current index. -/
def argmaxGo : List ℕ → ℕ → ℕ → ℕ → ℕ
  | [], _, bi, _ => bi
  | x :: xs, best, bi, i =>
    if x > best then argmaxGo xs x i (i + 1) else argmaxGo xs best bi (i + 1)

/-- `np.argmax` on a list of naturals: index of the first maximum (equals the
fold from 0 because grades and lengths are naturals). -/
def argmaxIdx (l : List ℕ) : ℕ := argmaxGo l 0 0 0

/-- `find_longest_line`, with explicit fuel bounding the (terminating)
recursion depth; every property proved about it is fuel-generic.  Python
exceptions (`np.argmax` of an empty `subLength`, index errors on
`subtree`/`dividePointIndex`) are `none`; the `raise` in the `except` block
propagates them. -/
def find_longest_line : ℕ → BloodTree → Option (List PPair)
  | 0, _ => none
  | f + 1, t =>
    if 0 < t.line.length ∧ 0 < t.subtree.length then
      if t.subLength.isEmpty then none
      else
        let index := argmaxIdx t.subLength
        match t.subtree.get? index, t.dividePointIndex.get? index with
        | some c, some d => (find_longest_line f c).map (fun nl => nl ++ t.line.drop d)
        | _, _ => none
    else some t.line

/-- A small-branch record `{'branch': ..., 'dividePointIndex': ...}`. -/
structure Branch where
  branch : BloodTree
  dividePointIndex : ℕ

/-- The sibling-collection loop of `find_small_branches` in the
`dividePointIndex[max_length_ind] == 0` case: every child other than the
dominant one becomes a branch at offset
`subLength[max] + dividePointIndex[i] - dividePointIndex[max]`. -/
def collectSibs (sub : List BloodTree) (slmax dmax mi : ℕ) :
    ℕ → List ℕ → Option (List Branch)
  | _, [] => some []
  | i, d :: ds =>
    if i = mi then collectSibs sub slmax dmax mi (i + 1) ds
    else
      match sub.get? i with
      | none => none
      | some c =>
        (collectSibs sub slmax dmax mi (i + 1) ds).map
          (fun bs => ⟨c, slmax + d - dmax⟩ :: bs)

/-- Accumulated output of the splitting loop of `find_small_branches` in the
`dividePointIndex[max_length_ind] >= 1` case. -/
structure FsbAcc where
  newSub : List BloodTree
  newSubLen : List ℕ
  newDiv : List ℕ
  branches : List Branch

/-- The splitting loop: children diverging before the dominant divide index go
into the synthetic prefix node; the others (except the dominant child itself)
become branches at the translated offset. -/
def collectSplit (sub : List BloodTree) (slen : List ℕ) (slmax dmax mi : ℕ) :
    ℕ → List ℕ → Option FsbAcc
  | _, [] => some ⟨[], [], [], []⟩
  | i, d :: ds =>
    match collectSplit sub slen slmax dmax mi (i + 1) ds with
    | none => none
    | some acc =>
      if d < dmax then
        match sub.get? i, slen.get? i with
        | some c, some sl =>
          some ⟨c :: acc.newSub, sl :: acc.newSubLen, d :: acc.newDiv, acc.branches⟩
        | _, _ => none
      else if i ≠ mi then
        match sub.get? i with
        | some c => some ⟨acc.newSub, acc.newSubLen, acc.newDiv,
            ⟨c, slmax + d - dmax⟩ :: acc.branches⟩
        | none => none
      else some acc

/-- `find_small_branches`, with explicit fuel (the recursion descends into
the dominant child only). -/
def find_small_branches : ℕ → BloodTree → Option (List Branch)
  | 0, _ => none
  | f + 1, t =>
    if t.subtree.isEmpty then some []
    else if t.subLength.isEmpty then none
    else
      let mi := argmaxIdx t.subLength
      match t.dividePointIndex.get? mi, t.subLength.get? mi, t.subtree.get? mi with
      | some dmax, some slmax, some cmax =>
        if dmax = 0 then
          match collectSibs t.subtree slmax dmax mi 0 t.dividePointIndex,
              find_small_branches f cmax with
          | some bs, some deeper => some (bs ++ deeper)
          | _, _ => none
        else
          match collectSplit t.subtree t.subLength slmax dmax mi 0 t.dividePointIndex,
              find_small_branches f cmax with
          | some acc, some deeper =>
            let prefixTree := BloodTree.mk (t.line.take dmax) acc.newSub []
              acc.newSubLen acc.newDiv 999
            some (acc.branches ++ [⟨prefixTree, slmax⟩] ++ deeper)
          | _, _ => none
      | _, _, _ => none

/-- Python `max` on a list of naturals (only applied to non-empty lists). -/
def maxList (l : List ℕ) : ℕ := l.foldl max 0

/-- The body of the `for br in branches` loop of `create_new_tree_from_old`:
canonicalize the branch (through `deeper`, the recursive call), append it to
`subtree` and its offset to `dividePointIndex`, and append to `subLength`
only when the branch's own `subLength` is non-empty. -/
def cntStep (deeper : BloodTree → Option BloodTree) (acc : BloodTree)
    (br : Branch) : Option BloodTree := do
  let child ← deeper br.branch
  let subLen := if br.branch.subLength.isEmpty then acc.subLength
    else acc.subLength ++ [maxList br.branch.subLength]
  pure (BloodTree.mk acc.line (acc.subtree ++ [child]) acc.deep subLen
    (acc.dividePointIndex ++ [br.dividePointIndex]) acc.layer)

/-- `create_new_tree_from_old`, with explicit fuel: the canonical line is the
longest line and the small branches are canonicalized recursively. -/
def create_new_tree_from_old : ℕ → BloodTree → Option BloodTree
  | 0, _ => none
  | f + 1, t => do
    let newLine ← find_longest_line (f + 1) t
    let brs ← find_small_branches (f + 1) t
    brs.foldlM (cntStep (create_new_tree_from_old f))
      (BloodTree.mk newLine [] [] [] [] 0)

/-- Accumulator of the child loop of `assign_depth`. -/
structure ADAcc where
  newSub : List BloodTree
  deepAdd : List ℕ
  lenAdd : List ℕ
  maxDeep : ℕ
  maxLength : ℕ
  maxLengthInd : ℕ

/-- The body of the `for i, subt in enumerate(blood_tree['subtree'])` loop of
`assign_depth` (through `deeper`, the recursive call): annotate the child,
read `dividePointIndex[i]`, append the child's depth and length, and track
the strictly improving maximum length together with its divide index. -/
def adStepM (deeper : BloodTree → Option (BloodTree × ℕ × ℕ)) (divs : List ℕ)
    (acc : ADAcc) (ic : ℕ × BloodTree) : Option ADAcc := do
  let r ← deeper ic.2
  match divs.get? ic.1 with
  | none => none
  | some index =>
    let acc2 : ADAcc := ⟨acc.newSub ++ [r.1], acc.deepAdd ++ [r.2.1],
      acc.lenAdd ++ [r.2.2], max r.2.1 acc.maxDeep, acc.maxLength,
      acc.maxLengthInd⟩
    if r.2.2 > acc.maxLength then
      pure ⟨acc2.newSub, acc2.deepAdd, acc2.lenAdd, acc2.maxDeep, r.2.2, index⟩
    else pure acc2

/-- `assign_depth`, with explicit fuel: annotates every node in place
(appending to the existing `deep` and `subLength` lists) and returns the
annotated tree with `(max_deep + 1, max_length + len(line[max_length_ind:]))`. -/
def assign_depth : ℕ → BloodTree → Option (BloodTree × ℕ × ℕ)
  | 0, _ => none
  | f + 1, t => do
    let st ← t.subtree.enum.foldlM (adStepM (assign_depth f) t.dividePointIndex)
      ⟨[], [], [], 0, 0, 0⟩
    pure (BloodTree.mk t.line st.newSub (t.deep ++ st.deepAdd)
        (t.subLength ++ st.lenAdd) t.dividePointIndex t.layer,
      st.maxDeep + 1, st.maxLength + (t.line.drop st.maxLengthInd).length)

/-- `empty_depth_info`, with explicit fuel: clears `subLength` (and only
`subLength`) in every node. -/
def empty_depth_info : ℕ → BloodTree → BloodTree
  | 0, t => t
  | f + 1, t =>
    BloodTree.mk t.line (t.subtree.map (empty_depth_info f)) t.deep []
      t.dividePointIndex t.layer

/-- The child-scanning fold of `assign_depth`, over the children's returned
lengths `ls` and the node's `dividePointIndex` list: carries
`(max_length, max_length_ind)`, updating on strict improvement only (ties go
to the first child). -/
def adStep (divs : List ℕ) (acc il : ℕ × ℕ) : ℕ × ℕ :=
  if il.2 > acc.1 then (il.2, (divs.get? il.1).getD 0) else acc

def adFold (divs ls : List ℕ) : ℕ × ℕ :=
  ls.enum.foldl (adStep divs) (0, 0)

/-- Map an `Option`-valued function over a list, failing when any element
fails. -/
def mapO (g : BloodTree → Option ℕ) : List BloodTree → Option (List ℕ)
  | [] => some []
  | c :: cs => do
    let n ← g c
    let ns ← mapO g cs
    pure (n :: ns)

/-- The length component of `assign_depth`, as a fuelled function: the
`max_length + len(line[max_length_ind:])` recursion of `assign_depth`,
reading the structure only (children, divide indices, line), not the stored
annotation lists. -/
def glenF : ℕ → BloodTree → Option ℕ
  | 0, _ => none
  | f + 1, t => do
    let ls ← mapO (glenF f) t.subtree
    pure ((adFold t.dividePointIndex ls).1 +
      (t.line.drop (adFold t.dividePointIndex ls).2).length)

/-- `n` is the greedy path length `assign_depth` computes for `t` (with some
sufficient fuel). -/
def GlenIs (t : BloodTree) (n : ℕ) : Prop := ∃ f, glenF f t = some n

/-! ## Tree building -/

/-- A segment key: (generation, segment ordinal). -/
abbrev SegKey : Type := ℕ × ℕ

/-- Flatten the segment dictionary in its iteration order, keying each segment
by `(generation, seg_num)` with `seg_num` starting at 1. -/
def flattenSegs (segDic : List (ℕ × List (List PPair))) :
    List (SegKey × List PPair) :=
  (segDic.map (fun p => p.2.enum.map (fun js => ((p.1, js.1 + 1), js.2)))).flatten

/-- The parent coordinate of a segment's tail pair, `seg_dic[i][j][-1][1]`. -/
def segTailParent (seg : List PPair) : Pt := (seg.getLastD default).2

/-- Fuelled `build_tree_structure`: for each segment not yet attached, find
the first point of the current node's line equal to the segment tail's
parent, attach a new child node there, and recurse into it.  The `find_dad`
bookkeeping array becomes the list of attached keys. -/
def buildGo (segs : List (SegKey × List PPair)) : ℕ → ℕ → BloodTree →
    List SegKey → BloodTree × List SegKey
  | 0, _, t, dad => (t, dad)
  | f + 1, layer, t, dad =>
    segs.foldl
      (fun (acc : BloodTree × List SegKey) ks =>
        if ks.1 ∈ acc.2 then acc
        else
          match acc.1.line.findIdx? (fun pp => pp.1 == segTailParent ks.2) with
          | none => acc
          | some k =>
            let child0 := BloodTree.mk ks.2 [] [] [] [] layer
            let rec2 := buildGo segs f (layer + 1) child0 (ks.1 :: acc.2)
            (BloodTree.mk acc.1.line (acc.1.subtree ++ [rec2.1]) acc.1.deep
              acc.1.subLength (acc.1.dividePointIndex ++ [k]) acc.1.layer, rec2.2))
      (t, dad)

/-- `build_tree_structure` with ample fuel (each nested call is preceded by an
attachment, so the number of segments bounds the recursion depth). -/
def build_tree_structure (segDic : List (ℕ × List (List PPair)))
    (t : BloodTree) : BloodTree × List SegKey :=
  let segs := flattenSegs segDic
  buildGo segs (segs.length + 1) 0 t []

/-- Squared Euclidean distance `np.sum((center_middle - sk_coords)**2)`. -/
def sqDist (a b : Pt) : ℤ :=
  (a.1 - b.1) ^ 2 + (a.2.1 - b.2.1) ^ 2 + (a.2.2 - b.2.2) ^ 2

/-- Accumulator of `np.argmin` over a list of integers. -/
def argminGo : List ℤ → ℤ → ℕ → ℕ → ℕ
  | [], _, bi, _ => bi
  | x :: xs, best, bi, i =>
    if x < best then argminGo xs x i (i + 1) else argminGo xs best bi (i + 1)

/-- `np.argmin` on a list of integers: index of the first minimum. -/
def argminIdx : List ℤ → ℕ
  | [] => 0
  | x :: xs => argminGo xs x 0 1

/-- `get_tree_from_region`, with explicit fuel for the annotation and
canonicalization recursions: pick the skeleton coordinate nearest the center
as root, label the skeleton mask, build the raw tree, annotate it, and
canonicalize it. -/
def get_tree_from_region (fuel : ℕ) (sh : Shape) (center : Pt)
    (skCoords : List Pt) : Option BloodTree :=
  let mr := argminIdx (skCoords.map (fun c => sqDist center c))
  match skCoords.get? mr with
  | none => none
  | some mrc =>
    let t0 := BloodTree.mk [(mrc, (0, 0, 0))] [] [] [] [] 0
    let mask : Pt → Bool := fun p => skCoords.contains p
    let lv := label_vessel_grades sh mask mrc
    if lv.2.isEmpty then none
    else
      let built := build_tree_structure lv.2 t0
      match assign_depth fuel built.1 with
      | none => none
      | some r => create_new_tree_from_old fuel r.1

/-- A well-annotated tree: what the raw trees built by
`build_tree_structure` look like after `assign_depth` has annotated them.
Each node has a non-empty line, `subtree`, `dividePointIndex` and
`subLength` of equal length, in-range divide indices, and `subLength`
holding exactly the greedy lengths `assign_depth` computes for the children. -/
inductive WA : BloodTree → Prop where
  | mk (line : List PPair) (sub : List BloodTree) (deep slen divs : List ℕ)
      (ly : ℕ) :
      line ≠ [] →
      sub.length = divs.length →
      sub.length = slen.length →
      (∀ d ∈ divs, d < line.length) →
      List.Forall₂ GlenIs sub slen →
      (∀ c ∈ sub, WA c) →
      WA (.mk line sub deep slen divs ly)

/-! ## Reachability (the specification-side notion for the partition
property): 26-connectivity within the mask. -/

/-- Two voxels are 26-adjacent when they differ by one of the 26 offsets. -/
def Adjacent (p q : Pt) : Prop := ∃ d ∈ directions, q = addPt p d

/-- One traversal step: move to an adjacent, in-bounds voxel of the mask. -/
def Step (sh : Shape) (mask : Pt → Bool) (p q : Pt) : Prop :=
  Adjacent p q ∧ inBoundsB sh q = true ∧ mask q = true

/-- Reachability from the root under 26-connectivity within the mask. -/
def Reach (sh : Shape) (mask : Pt → Bool) (s p : Pt) : Prop :=
  Relation.ReflTransGen (Step sh mask) s p

/-- The voxels of the grid, as a finite set. -/
def gridCells (sh : Shape) : Finset Pt :=
  ((Finset.range sh.1) ×ˢ (Finset.range sh.2.1) ×ˢ (Finset.range sh.2.2)).image
    (fun t => ((t.1 : ℤ), (t.2.1 : ℤ), (t.2.2 : ℤ)))

/-- Number of grid voxels still reading grade 0. -/
def unlabeledCard (sh : Shape) (g : Grades) : ℕ :=
  ((gridCells sh).filter (fun p => lookupGrade g p = 0)).card

/-- Number of `false` entries of a `readed` vector. -/
def unreadCount (rs : List Bool) : ℕ := (rs.filter (fun b => !b)).length

/-- The pairs of a generation still unread under a `readed` vector. -/
def unreadList (pairs : List PPair) (rs : List Bool) : List PPair :=
  ((pairs.zip rs).filter (fun x => !x.2)).map Prod.fst

/-- All points of all segments of a segment dictionary, flattened across
generations and segments. -/
def segDicPoints (segDic : List (ℕ × List (List PPair))) : List Pt :=
  (((segDic.map (fun x => x.2)).flatten).map (fun seg => seg.map Prod.fst)).flatten

/-- The grade pattern the labeler assigns to the `k` newly discovered
neighbors of a voxel of grade `cg`: the first inherits `cg`, the remaining
`k - 1` get `cg + 1`. -/
def gradePattern (cg : ℕ) : ℕ → List ℕ
  | 0 => []
  | k + 1 => cg :: List.replicate k (cg + 1)

/-- `P` holds at every node of the tree. -/
inductive AllNodes (P : BloodTree → Prop) : BloodTree → Prop where
  | mk (t : BloodTree) : P t → (∀ c ∈ t.subtree, AllNodes P c) → AllNodes P t

/-- The brute-force maximum root-to-leaf voxel count of the specification
(modelled from the claim's words, for comparison with the code's canonical
backbone): for a leaf, the full line; otherwise the maximum over children of
the child's count plus the points of the own line from that child's divide
index to the end. -/
def maxRootToLeafCount : ℕ → BloodTree → ℕ
  | 0, _ => 0
  | f + 1, t =>
    if t.subtree.isEmpty then t.line.length
    else
      maxList ((t.subtree.zip t.dividePointIndex).map
        (fun cd => maxRootToLeafCount f cd.1 + (t.line.drop cd.2).length))

/-! ## Concrete demonstration inputs -/

/-- A Y-shaped skeleton: a 5-voxel trunk with the root at its free end,
branching at `(4,5,0)` into two 5-voxel diagonal arms of equal length. -/
def yCoords : List Pt :=
  [(0, 5, 0), (1, 5, 0), (2, 5, 0), (3, 5, 0), (4, 5, 0),
   (5, 6, 0), (6, 7, 0), (7, 8, 0), (8, 9, 0), (9, 10, 0),
   (5, 4, 0), (6, 3, 0), (7, 2, 0), (8, 1, 0), (9, 0, 0)]

/-- A grid just containing the Y skeleton. -/
def ySh : Shape := (10, 11, 1)

/-- The full pipeline (`get_tree_from_region`) on the Y skeleton, centered
exactly on the trunk's free end. -/
def yTree : Option BloodTree := get_tree_from_region 100 ySh (0, 5, 0) yCoords

/-- Re-canonicalization of the canonical Y tree, exactly as
`get_all_lines_and_tree` in `main.py` does it: reset the depth info,
re-annotate, canonicalize again. -/
def yRecanon : Option BloodTree :=
  yTree.bind (fun t =>
    (assign_depth 100 (empty_depth_info 100 t)).bind
      (fun r => create_new_tree_from_old 100 r.1))

/-- A synthetic root node for tree building. -/
def c2Root : BloodTree := .mk [((0, 0, 0), (0, 0, 0))] [] [] [] [] 0

/-- A segment dictionary with one attachable segment (generation 1) and one
orphan segment (generation 2) whose tail parent `(4,4,4)` matches no point of
any line. -/
def c2Segs : List (ℕ × List (List PPair)) :=
  [(1, [[((1, 0, 0), (0, 0, 0))]]), (2, [[((5, 5, 5), (4, 4, 4))]])]

/-- A 3×1×1 mask whose voxels `(1,0,0)` and `(2,0,0)` are set but whose
chosen root `(0,0,0)` is unset. -/
def c3Mask (p : Pt) : Bool := p == (1, 0, 0) || p == (2, 0, 0)

/-- A 10-point leaf chain. -/
def cexChainA : BloodTree :=
  .mk ((List.range 10).map (fun i => (((i : ℤ), 50, 0), ((i : ℤ), 50, 0)))) [] [] [] [] 1

/-- A 9-point leaf chain. -/
def cexChainB : BloodTree :=
  .mk ((List.range 9).map (fun i => (((i : ℤ), 60, 0), ((i : ℤ), 60, 0)))) [] [] [] [] 1

/-- A raw tree whose line has 6 points, with the 10-chain attached at divide
index 5 and the 9-chain attached at divide index 0: the greedy backbone
(10 + 1 = 11 points) is shorter than the true longest path (9 + 6 = 15). -/
def cexRaw : BloodTree :=
  .mk ((List.range 6).map (fun i => (((i : ℤ), 0, 0), ((i : ℤ), 0, 0))))
    [cexChainA, cexChainB] [] [] [5, 0] 0

/-- A 2-point leaf chain. -/
def c10Leaf : BloodTree :=
  .mk [((5, 5, 5), (5, 5, 5)), ((6, 6, 6), (6, 6, 6))] [] [] [] [] 1

/-- A raw tree with a 2-point line and the 2-point leaf attached at divide
index 1; its canonicalization collects one leaf branch, so the canonical
root keeps `subLength` empty while `subtree` has one entry. -/
def c10Raw : BloodTree :=
  .mk [((0, 0, 0), (0, 0, 0)), ((1, 0, 0), (1, 0, 0))] [c10Leaf] [] [] [1] 0

/-- A one-pair line used for leaf-tree witnesses. -/
def leafLine : List PPair := [((0, 0, 0), (0, 0, 0))]

/-- A leaf tree with stale annotation entries, for the idempotence witness. -/
def leafStale : BloodTree := .mk leafLine [] [3] [4] [] 7

/-! ## Theorems -/

set_option maxRecDepth 10000
set_option synthInstance.maxSize 1000

/-- **C3** (code-bug demonstration): `label_vessel_grades` performs no
root-voxel check.  On a mask whose root voxel is unset it still marks the
root with generation 1, labels the voxels 26-reachable from the root, and
returns a non-empty segment dictionary instead of failing with an
`EmptyMask` error (no such error exists anywhere in the source). -/
theorem c3_unset_root_is_labeled_anyway :
    c3Mask (0, 0, 0) = false ∧
    lookupGrade (label_vessel_grades (3, 1, 1) c3Mask (0, 0, 0)).1 (0, 0, 0) = 1 ∧
    (label_vessel_grades (3, 1, 1) c3Mask (0, 0, 0)).2 =
      [(1, [[((2, 0, 0), (1, 0, 0)), ((1, 0, 0), (0, 0, 0))]])] :=
  ⟨by decide, by decide, by decide⟩

/-- **C2** (code-bug demonstration): `build_tree_structure` silently drops a
segment that matches no attachment point.  On a dictionary with one
attachable segment and one orphan segment (tail parent `(4,4,4)`, matching
no line point) it returns normally; the built tree contains only the
attachable segment and only the key `(1, 1)` is marked attached — no error
of any kind is surfaced. -/
theorem c2_orphan_segment_silently_dropped :
    (build_tree_structure c2Segs c2Root).1.subtree.map BloodTree.line =
      [[((1, 0, 0), (0, 0, 0))]] ∧
    (build_tree_structure c2Segs c2Root).1.dividePointIndex = [0] ∧
    (build_tree_structure c2Segs c2Root).2 = [(1, 1)] :=
  ⟨by decide, by decide, by decide⟩

/-- **C6** (counterexample): on the Y-shaped skeleton the full pipeline
produces a canonical tree whose single side branch is attached at
`dividePointIndex` 5, not 4 as the claim states. -/
theorem c6_counterexample_divide_index :
    yTree.map (fun t => t.dividePointIndex) = some [5] ∧
    ¬ yTree.map (fun t => t.dividePointIndex) = some [4] :=
  ⟨by decide, by decide⟩

/-- **C6** (amended): on the Y-shaped skeleton the full pipeline produces a
canonical tree whose root line has 10 points (trunk plus one arm) and
exactly one subtree entry whose line has 5 points, attached at
`dividePointIndex` 5 — the canonical line is ordered leaf end first, so the
branch point sits right after the 5 points of the backbone arm. -/
theorem c6_amended_y_scenario :
    yTree.map (fun t =>
        (t.line.length, t.subtree.map (fun c => c.line.length),
          t.dividePointIndex)) =
      some (10, [5], [5]) := by decide

/-- **C9** (code-bug demonstration): `empty_depth_info` clears only
`subLength`, not `deep`; re-running `assign_depth` after it therefore
appends duplicate `deep` entries.  On an annotated one-child tree, after
reset and re-annotation the root has two `deep` entries but one `subtree`,
one `subLength` and one `dividePointIndex` entry. -/
theorem c9_reset_misses_deep_list :
    ((assign_depth 10 c10Raw).bind
        (fun r => assign_depth 10 (empty_depth_info 10 r.1))).map
      (fun r => (r.1.deep, r.1.subtree.length, r.1.subLength,
        r.1.dividePointIndex)) =
      some ([1, 1], 1, [2], [1]) := by decide

/-- **C8** (counterexample): re-canonicalizing the canonical tree of the Y
skeleton (reset, re-annotate, canonicalize, exactly as
`get_all_lines_and_tree` in `main.py` does) swaps which arm lies on the
backbone: the resulting root line differs from the input's root line, so
canonicalization is not idempotent on trees with side branches. -/
theorem c8_counterexample_backbone_changes :
    yTree.map (fun t => t.line.take 1) = some [((9, 10, 0), (8, 9, 0))] ∧
    yRecanon.map (fun t => t.line.take 1) = some [((9, 0, 0), (8, 1, 0))] ∧
    ¬ yTree.map BloodTree.line = yRecanon.map BloodTree.line :=
  ⟨by decide, by decide, by decide⟩

/-! ### Accessors -/

@[simp] theorem line_mk (l : List PPair) (sub : List BloodTree) (d sl dv : List ℕ)
    (ly : ℕ) : (BloodTree.mk l sub d sl dv ly).line = l := rfl

@[simp] theorem subtree_mk (l : List PPair) (sub : List BloodTree) (d sl dv : List ℕ)
    (ly : ℕ) : (BloodTree.mk l sub d sl dv ly).subtree = sub := rfl

@[simp] theorem deep_mk (l : List PPair) (sub : List BloodTree) (d sl dv : List ℕ)
    (ly : ℕ) : (BloodTree.mk l sub d sl dv ly).deep = d := rfl

@[simp] theorem subLength_mk (l : List PPair) (sub : List BloodTree) (d sl dv : List ℕ)
    (ly : ℕ) : (BloodTree.mk l sub d sl dv ly).subLength = sl := rfl

@[simp] theorem dividePointIndex_mk (l : List PPair) (sub : List BloodTree)
    (d sl dv : List ℕ) (ly : ℕ) :
    (BloodTree.mk l sub d sl dv ly).dividePointIndex = dv := rfl

@[simp] theorem layer_mk (l : List PPair) (sub : List BloodTree) (d sl dv : List ℕ)
    (ly : ℕ) : (BloodTree.mk l sub d sl dv ly).layer = ly := rfl

/-! ### `np.argmax` and the `assign_depth` child fold -/

/-- The accumulator run of `np.argmax`: the result is either the incoming
best index (and no element beats the incoming best value), or the position,
counted from `i`, of the first maximum of the remaining list. -/
theorem argmaxGo_spec : ∀ (ls : List ℕ) (best bi i : ℕ),
    (argmaxGo ls best bi i = bi ∧ ls.foldl max best = best) ∨
      ∃ j, j < ls.length ∧ argmaxGo ls best bi i = i + j ∧
        ls.get? j = some (ls.foldl max best) := by
  intro ls
  induction ls with
  | nil => exact fun best bi i => Or.inl ⟨rfl, rfl⟩
  | cons x xs ih =>
    intro best bi i
    by_cases h : x > best
    · have hmax : max best x = x := by omega
      rcases ih x i (i + 1) with ⟨h1, h2⟩ | ⟨j, hj, h1, h2⟩
      · refine Or.inr ⟨0, by simp, ?_, ?_⟩
        · simpa [argmaxGo, h] using h1
        · show (x :: xs).get? 0 = some ((x :: xs).foldl max best)
          rw [List.foldl_cons, hmax, h2]; rfl
      · refine Or.inr ⟨j + 1, by simpa using hj, ?_, ?_⟩
        · have : argmaxGo (x :: xs) best bi i = argmaxGo xs x i (i + 1) := by
            simp [argmaxGo, h]
          rw [this, h1]; omega
        · show (x :: xs).get? (j + 1) = some ((x :: xs).foldl max best)
          rw [List.get?_cons_succ, List.foldl_cons, hmax]; exact h2
    · have hmax : max best x = best := by omega
      rcases ih best bi (i + 1) with ⟨h1, h2⟩ | ⟨j, hj, h1, h2⟩
      · exact Or.inl ⟨by simpa [argmaxGo, h] using h1,
          by simp only [List.foldl_cons, hmax, h2]⟩
      · refine Or.inr ⟨j + 1, by simpa using hj, ?_, ?_⟩
        · have : argmaxGo (x :: xs) best bi i = argmaxGo xs best bi (i + 1) := by
            simp [argmaxGo, h]
          rw [this, h1]; omega
        · show (x :: xs).get? (j + 1) = some ((x :: xs).foldl max best)
          rw [List.get?_cons_succ, List.foldl_cons, hmax]; exact h2

/-- `np.argmax` of a non-empty list gives an in-range index. -/
theorem argmaxIdx_lt (ls : List ℕ) (h0 : ls ≠ []) : argmaxIdx ls < ls.length := by
  cases ls with
  | nil => exact absurd rfl h0
  | cons x xs =>
    show argmaxGo (x :: xs) 0 0 0 < xs.length + 1
    by_cases h : x > 0
    · have hx : argmaxGo (x :: xs) 0 0 0 = argmaxGo xs x 0 1 := by simp [argmaxGo, h]
      rcases argmaxGo_spec xs x 0 1 with ⟨h1, _⟩ | ⟨j, hj, h1, _⟩ <;> omega
    · have hx : argmaxGo (x :: xs) 0 0 0 = argmaxGo xs 0 0 1 := by simp [argmaxGo, h]
      rcases argmaxGo_spec xs 0 0 1 with ⟨h1, _⟩ | ⟨j, hj, h1, _⟩ <;> omega

/-- The value at the index `np.argmax` returns is the maximum of the list. -/
theorem get?_argmaxIdx (ls : List ℕ) (h0 : ls ≠ []) :
    ls.get? (argmaxIdx ls) = some (maxList ls) := by
  cases ls with
  | nil => exact absurd rfl h0
  | cons x xs =>
    have hfold : maxList (x :: xs) = xs.foldl max x := by
      simp [maxList, List.foldl_cons]
    by_cases h : x > 0
    · have hx : argmaxIdx (x :: xs) = argmaxGo xs x 0 1 := by
        simp [argmaxIdx, argmaxGo, h]
      rcases argmaxGo_spec xs x 0 1 with ⟨h1, h2⟩ | ⟨j, hj, h1, h2⟩
      · rw [hx, h1, hfold, h2]; rfl
      · rw [hx, h1, hfold, Nat.add_comm 1 j, List.get?_cons_succ]
        exact h2
    · have hx0 : x = 0 := by omega
      have hx : argmaxIdx (x :: xs) = argmaxGo xs 0 0 1 := by
        simp [argmaxIdx, argmaxGo, h]
      rcases argmaxGo_spec xs 0 0 1 with ⟨h1, h2⟩ | ⟨j, hj, h1, h2⟩
      · rw [hx, h1, hfold, hx0]
        show some 0 = some (List.foldl max 0 xs)
        rw [h2]
      · rw [hx, h1, hfold, hx0, Nat.add_comm 1 j, List.get?_cons_succ]
        exact h2

/-- The `(max_length, max_length_ind)` fold of `assign_depth`, run from a
state `(best, divs[bi])`, lands on `(max of all values, divs[argmax])`. -/
theorem adFold_go_eq (divs : List ℕ) : ∀ (ls : List ℕ) (i best bi : ℕ),
    (List.enumFrom i ls).foldl (adStep divs) (best, (divs.get? bi).getD 0) =
      (ls.foldl max best, (divs.get? (argmaxGo ls best bi i)).getD 0) := by
  intro ls
  induction ls with
  | nil => intro i best bi; rfl
  | cons x xs ih =>
    intro i best bi
    by_cases h : x > best
    · have hstep : adStep divs (best, (divs.get? bi).getD 0) (i, x) =
          (x, (divs.get? i).getD 0) := by simp [adStep, h]
      have hgo : argmaxGo (x :: xs) best bi i = argmaxGo xs x i (i + 1) := by
        simp [argmaxGo, h]
      have hm : List.foldl max best (x :: xs) = List.foldl max x xs := by
        rw [List.foldl_cons]; congr 1; omega
      rw [List.enumFrom, List.foldl_cons, hstep, hgo, hm]
      exact ih (i + 1) x i
    · have hstep : adStep divs (best, (divs.get? bi).getD 0) (i, x) =
          (best, (divs.get? bi).getD 0) := by simp [adStep, h]
      have hgo : argmaxGo (x :: xs) best bi i = argmaxGo xs best bi (i + 1) := by
        simp [argmaxGo, h]
      have hm : List.foldl max best (x :: xs) = List.foldl max best xs := by
        rw [List.foldl_cons]; congr 1; omega
      rw [List.enumFrom, List.foldl_cons, hstep, hgo, hm]
      exact ih (i + 1) best bi

/-- `adFold` on a non-empty list of positive values returns the maximum value
together with the divide index stored at the `np.argmax` position. -/
theorem adFold_eq (divs ls : List ℕ) (h0 : ls ≠ []) (h1 : ∀ x ∈ ls, 1 ≤ x) :
    adFold divs ls = (maxList ls, (divs.get? (argmaxIdx ls)).getD 0) := by
  cases ls with
  | nil => exact absurd rfl h0
  | cons x xs =>
    have hpos : x > 0 := h1 x (by simp)
    have hstep : adStep divs (0, 0) (0, x) = (x, (divs.get? 0).getD 0) := by
      simp [adStep, hpos]
    have hidx : argmaxIdx (x :: xs) = argmaxGo xs x 0 1 := by
      simp [argmaxIdx, argmaxGo, hpos]
    have hfold : maxList (x :: xs) = xs.foldl max x := by
      simp [maxList, List.foldl_cons]
    show ((x :: xs).enum).foldl (adStep divs) (0, 0) = _
    rw [List.enum, List.enumFrom, List.foldl_cons, hstep, hidx, hfold]
    exact adFold_go_eq divs xs 1 x 0

/-- Any run of the `assign_depth` child fold keeps its index component equal
to 0 or to one of the stored divide indices. -/
theorem adFold_snd_go (divs : List ℕ) : ∀ (l : List (ℕ × ℕ)) (b bd : ℕ),
    (bd = 0 ∨ bd ∈ divs) →
    ((l.foldl (adStep divs) (b, bd)).2 = 0 ∨
      (l.foldl (adStep divs) (b, bd)).2 ∈ divs) := by
  intro l
  induction l with
  | nil => exact fun b bd h => h
  | cons il rest ih =>
    intro b bd h
    by_cases hc : il.2 > b
    · rw [List.foldl_cons, show adStep divs (b, bd) il = (il.2, (divs.get? il.1).getD 0)
        from by simp [adStep, hc]]
      refine ih il.2 ((divs.get? il.1).getD 0) ?_
      cases hg : divs.get? il.1 with
      | none => exact Or.inl (by simp [hg])
      | some d => exact Or.inr (by simpa [hg] using List.get?_mem hg)
    · rw [List.foldl_cons, show adStep divs (b, bd) il = (b, bd)
        from by simp [adStep, hc]]
      exact ih b bd h

/-- The index component of `adFold` is 0 or one of the stored divide
indices. -/
theorem adFold_snd (divs ls : List ℕ) :
    (adFold divs ls).2 = 0 ∨ (adFold divs ls).2 ∈ divs :=
  adFold_snd_go divs ls.enum 0 0 (Or.inl rfl)

/-! ### `glenF` and `GlenIs` -/

/-- A successful `mapO` run is a pointwise success. -/
theorem mapO_some_forall₂ (g : BloodTree → Option ℕ) :
    ∀ (l : List BloodTree) (r : List ℕ), mapO g l = some r →
      List.Forall₂ (fun c n => g c = some n) l r := by
  intro l
  induction l with
  | nil =>
    intro r h
    cases h
    exact List.Forall₂.nil
  | cons c cs ih =>
    intro r h
    cases hg : g c with
    | none => simp [mapO, hg] at h
    | some n =>
      cases hm : mapO g cs with
      | none => simp [mapO, hg, hm] at h
      | some ns =>
        have hr : n :: ns = r := by simpa [mapO, hg, hm] using h
        rw [← hr]
        exact List.Forall₂.cons hg (ih ns hm)

/-- A pointwise success makes `mapO` succeed. -/
theorem forall₂_mapO_some (g : BloodTree → Option ℕ) :
    ∀ {l : List BloodTree} {r : List ℕ},
      List.Forall₂ (fun c n => g c = some n) l r → mapO g l = some r := by
  intro l r h
  induction h with
  | nil => rfl
  | cons hg _ ih => simp [mapO, hg, ih]

/-- `glenF` is monotone in its fuel. -/
theorem glenF_mono : ∀ (f f' : ℕ) (t : BloodTree) (n : ℕ), f ≤ f' →
    glenF f t = some n → glenF f' t = some n := by
  intro f
  induction f with
  | zero =>
    intro f' t n _ h
    simp [glenF] at h
  | succ k ih =>
    intro f' t n hle h
    cases f' with
    | zero => omega
    | succ k' =>
      cases hm : mapO (glenF k) t.subtree with
      | none => rw [glenF, hm] at h; simp at h
      | some ls =>
        have h₂ : mapO (glenF k') t.subtree = some ls :=
          forall₂_mapO_some _ ((mapO_some_forall₂ _ _ _ hm).imp
            (fun {c n} hc => ih k' c n (by omega) hc))
        rw [glenF, hm] at h
        rw [glenF, h₂]
        exact h

/-- `glenF` results agree across fuels. -/
theorem glenF_func {f f' : ℕ} {t : BloodTree} {a b : ℕ}
    (ha : glenF f t = some a) (hb : glenF f' t = some b) : a = b := by
  have h₁ := glenF_mono f (max f f') t a (le_max_left _ _) ha
  have h₂ := glenF_mono f' (max f f') t b (le_max_right _ _) hb
  rw [h₁] at h₂
  exact Option.some_injective _ h₂

/-- The greedy length is unique. -/
theorem glenIs_func {t : BloodTree} {a b : ℕ}
    (ha : GlenIs t a) (hb : GlenIs t b) : a = b := by
  obtain ⟨f, hf⟩ := ha
  obtain ⟨f', hf'⟩ := hb
  exact glenF_func hf hf'

/-- Two greedy-length lists for the same children agree. -/
theorem forall₂_glenIs_unique : ∀ {l : List BloodTree} {r r' : List ℕ},
    List.Forall₂ GlenIs l r → List.Forall₂ GlenIs l r' → r = r' := by
  intro l r r' h
  induction h generalizing r' with
  | nil =>
    intro h'
    cases h'
    rfl
  | cons hg _ ih =>
    intro h'
    cases h' with
    | cons hg' hrest' => rw [glenIs_func hg hg', ih hrest']

/-- A member of the right list of a `Forall₂` is related to some member of
the left list. -/
theorem forall₂_mem_right {R : BloodTree → ℕ → Prop} :
    ∀ {l : List BloodTree} {r : List ℕ}, List.Forall₂ R l r →
      ∀ {x : ℕ}, x ∈ r → ∃ a ∈ l, R a x := by
  intro l r h
  induction h with
  | nil => intro x hx; cases hx
  | cons hg _ ih =>
    intro x hx
    rcases List.mem_cons.mp hx with rfl | hx'
    · exact ⟨_, List.mem_cons_self _ _, hg⟩
    · obtain ⟨a, ha, hr⟩ := ih hx'
      exact ⟨a, List.mem_cons_of_mem _ ha, hr⟩

/-- `Forall₂` read at one index. -/
theorem forall₂_get?_rel {α β : Type} {R : α → β → Prop} :
    ∀ {l : List α} {r : List β}, List.Forall₂ R l r →
      ∀ {i : ℕ} {a : α} {b : β}, l.get? i = some a → r.get? i = some b → R a b := by
  intro l r h
  induction h with
  | nil => intro i a b ha _; simp at ha
  | cons hg _ ih =>
    intro i a b ha hb
    cases i with
    | zero =>
      simp only [List.get?] at ha hb
      cases ha; cases hb
      exact hg
    | succ j =>
      simp only [List.get?] at ha hb
      exact ih ha hb

/-- The node rule of the greedy length: combine the children's greedy
lengths with `adFold`. -/
theorem glenIs_node (line : List PPair) (sub : List BloodTree)
    (deep slen divs : List ℕ) (ly : ℕ) (ls : List ℕ)
    (h : List.Forall₂ GlenIs sub ls) :
    GlenIs (BloodTree.mk line sub deep slen divs ly)
      ((adFold divs ls).1 + (line.drop (adFold divs ls).2).length) := by
  have hcommon : ∃ F, List.Forall₂ (fun c n => glenF F c = some n) sub ls := by
    induction h with
    | nil => exact ⟨0, List.Forall₂.nil⟩
    | cons hg _ ih =>
      obtain ⟨F1, hF1⟩ := hg
      obtain ⟨F2, hF2⟩ := ih
      refine ⟨max F1 F2, List.Forall₂.cons
        (glenF_mono _ _ _ _ (le_max_left _ _) hF1)
        (hF2.imp (fun {c n} hc => glenF_mono _ _ _ _ (le_max_right _ _) hc))⟩
  obtain ⟨F, hF⟩ := hcommon
  refine ⟨F + 1, ?_⟩
  rw [glenF, show (BloodTree.mk line sub deep slen divs ly).subtree = sub from rfl,
    forall₂_mapO_some _ hF]
  rfl

/-- Inversion of the greedy length at a node. -/
theorem glenIs_node_inv {line : List PPair} {sub : List BloodTree}
    {deep slen divs : List ℕ} {ly n : ℕ}
    (h : GlenIs (BloodTree.mk line sub deep slen divs ly) n) :
    ∃ ls, List.Forall₂ GlenIs sub ls ∧
      n = (adFold divs ls).1 + (line.drop (adFold divs ls).2).length := by
  obtain ⟨f, hf⟩ := h
  cases f with
  | zero => simp [glenF] at hf
  | succ k =>
    cases hm : mapO (glenF k) (BloodTree.mk line sub deep slen divs ly).subtree with
    | none => rw [glenF, hm] at hf; simp at hf
    | some ls =>
      rw [glenF, hm] at hf
      refine ⟨ls, (mapO_some_forall₂ _ _ _ hm).imp (fun {c n} hc => ⟨k, hc⟩), ?_⟩
      simpa using hf.symm

/-- Under well-annotation the greedy length is at least 1. -/
theorem glenIs_pos : ∀ (t : BloodTree) (n : ℕ), WA t → GlenIs t n → 1 ≤ n := by
  intro t n hwa hg
  cases hwa with
  | mk line sub deep slen divs ly hline hld hls hdiv hF hsub =>
    obtain ⟨ls, _, rfl⟩ := glenIs_node_inv hg
    have hidx : (adFold divs ls).2 < line.length := by
      rcases adFold_snd divs ls with h0 | hmem
      · rw [h0]; exact List.length_pos.mpr hline
      · exact hdiv _ hmem
    have hdrop : 0 < (line.drop (adFold divs ls).2).length := by
      rw [List.length_drop]; omega
    omega

/-- Under well-annotation, the greedy length of an internal node is the
maximum stored child length plus the remaining points of the own line from
the dominant child's divide index on. -/
theorem glenIs_val_internal {line : List PPair} {sub : List BloodTree}
    {deep slen divs : List ℕ} {ly n : ℕ}
    (hwa : WA (BloodTree.mk line sub deep slen divs ly))
    (hg : GlenIs (BloodTree.mk line sub deep slen divs ly) n)
    (hne : sub ≠ []) :
    n = maxList slen + (line.drop ((divs.get? (argmaxIdx slen)).getD 0)).length := by
  cases hwa with
  | mk line sub deep slen divs ly hline hld hls hdiv hF hsub =>
    obtain ⟨ls, hF2, rfl⟩ := glenIs_node_inv hg
    have hls2 : ls = slen := forall₂_glenIs_unique hF2 hF
    subst hls2
    have hpos : ∀ x ∈ ls, 1 ≤ x := by
      intro x hx
      obtain ⟨c, hc, hgc⟩ := forall₂_mem_right hF hx
      exact glenIs_pos c x (hsub c hc) hgc
    have hlsne : ls ≠ [] := by
      intro hnil
      rw [hnil] at hF
      cases hF
      exact hne rfl
    rw [adFold_eq divs ls hlsne hpos]

/-! ### `find_longest_line` computes the greedy length -/

/-- On a well-annotated tree, a successful `find_longest_line` returns a line
whose length is exactly the greedy heavy-child path count of `assign_depth`. -/
theorem fll_glenIs : ∀ (f : ℕ) (t : BloodTree) (l : List PPair), WA t →
    find_longest_line f t = some l → GlenIs t l.length := by
  intro f
  induction f with
  | zero =>
    intro t l _ h
    simp [find_longest_line] at h
  | succ k ih =>
    intro t l hwa h
    cases hwa with
    | mk line sub deep slen divs ly hline hld hls hdiv hF hsub =>
      rw [find_longest_line] at h
      simp only [line_mk, subtree_mk, subLength_mk, dividePointIndex_mk] at h
      by_cases hcond : 0 < line.length ∧ 0 < sub.length
      · rw [if_pos hcond] at h
        have hsubne : sub ≠ [] := List.length_pos.mp hcond.2
        have hslenne : slen ≠ [] := by
          intro hn
          rw [hn] at hls
          simp only [List.length_nil] at hls
          exact hsubne (List.eq_nil_of_length_eq_zero hls)
        rw [if_neg (by simpa [List.isEmpty_iff] using hslenne)] at h
        have hmilt : argmaxIdx slen < slen.length := argmaxIdx_lt slen hslenne
        have hc : sub.get? (argmaxIdx slen) =
            some (sub.get ⟨argmaxIdx slen, by omega⟩) := List.get?_eq_get _
        have hd : divs.get? (argmaxIdx slen) =
            some (divs.get ⟨argmaxIdx slen, by omega⟩) := List.get?_eq_get _
        rw [hc, hd] at h
        set c := sub.get ⟨argmaxIdx slen, by omega⟩ with hcdef
        set d := divs.get ⟨argmaxIdx slen, by omega⟩ with hddef
        have h' : Option.map (fun nl => nl ++ List.drop d line)
            (find_longest_line k c) = some l := h
        obtain ⟨lc, hlc, rfl⟩ : ∃ lc, find_longest_line k c = some lc ∧
            l = lc ++ line.drop d := by
          cases hr : find_longest_line k c with
          | none => rw [hr] at h'; simp at h'
          | some lc =>
            rw [hr] at h'
            exact ⟨lc, rfl, by simpa using h'.symm⟩
        have hcm : c ∈ sub := List.get?_mem hc
        have hgc : GlenIs c lc.length := ih c lc (hsub c hcm) hlc
        have hsv := get?_argmaxIdx slen hslenne
        have hrel : GlenIs c (maxList slen) := forall₂_get?_rel hF hc hsv
        have hlen : lc.length = maxList slen := glenIs_func hgc hrel
        have hpos : ∀ x ∈ slen, 1 ≤ x := by
          intro x hx
          obtain ⟨cx, hcx, hgx⟩ := forall₂_mem_right hF hx
          exact glenIs_pos cx x (hsub cx hcx) hgx
        have hnode := glenIs_node line sub deep slen divs ly slen hF
        rw [adFold_eq divs slen hslenne hpos] at hnode
        rw [hd] at hnode
        simpa [List.length_append, hlen] using hnode
      · rw [if_neg hcond] at h
        have hsubnil : sub = [] := by
          rcases not_and_or.mp hcond with h1 | h2
          · exact absurd (List.length_pos.mpr hline) h1
          · exact List.eq_nil_of_length_eq_zero (by omega)
        subst hsubnil
        have hl : line = l := by simpa using h
        subst hl
        have hnode := glenIs_node line [] deep slen divs ly [] List.Forall₂.nil
        simpa [adFold] using hnode

/-! ### The collection loops of `find_small_branches` -/

/-- Each branch collected by the `dividePointIndex[max] == 0` sibling loop
comes from a position `i + k ≠ mi` of the subtree list, with offset
`slmax + divs[i + k] - dmax`. -/
theorem collectSibs_mem (sub : List BloodTree) (slmax dmax mi : ℕ) :
    ∀ (ds : List ℕ) (i : ℕ) (bs : List Branch),
      collectSibs sub slmax dmax mi i ds = some bs →
      ∀ br ∈ bs, ∃ k dd, ds.get? k = some dd ∧ sub.get? (i + k) = some br.branch ∧
        i + k ≠ mi ∧ br.dividePointIndex = slmax + dd - dmax := by
  intro ds
  induction ds with
  | nil =>
    intro i bs h br hbr
    cases h
    cases hbr
  | cons d ds ih =>
    intro i bs h br hbr
    by_cases hi : i = mi
    · rw [collectSibs, if_pos hi] at h
      obtain ⟨k, dd, h1, h2, h3, h4⟩ := ih (i + 1) bs h br hbr
      refine ⟨k + 1, dd, by simpa using h1, ?_, by omega, h4⟩
      rwa [show i + (k + 1) = (i + 1) + k by omega]
    · cases hg : sub.get? i with
      | none => rw [collectSibs, if_neg hi, hg] at h; cases h
      | some c =>
        cases hrec : collectSibs sub slmax dmax mi (i + 1) ds with
        | none => rw [collectSibs, if_neg hi, hg, hrec] at h; cases h
        | some bs' =>
          have hbs : (⟨c, slmax + d - dmax⟩ : Branch) :: bs' = bs := by
            rw [collectSibs, if_neg hi, hg, hrec] at h
            simpa using h
          rw [← hbs] at hbr
          rcases List.mem_cons.mp hbr with rfl | hbr'
          · exact ⟨0, d, rfl, by simpa using hg, by simpa using hi, rfl⟩
          · obtain ⟨k, dd, h1, h2, h3, h4⟩ := ih (i + 1) bs' hrec br hbr'
            refine ⟨k + 1, dd, by simpa using h1, ?_, by omega, h4⟩
            rwa [show i + (k + 1) = (i + 1) + k by omega]

/-- One unfold step of the splitting loop when the recursive call is known. -/
theorem collectSplit_cons_eq {sub : List BloodTree} {slen : List ℕ}
    {slmax dmax mi i d : ℕ} {ds : List ℕ} {acc' : FsbAcc}
    (hrec : collectSplit sub slen slmax dmax mi (i + 1) ds = some acc') :
    collectSplit sub slen slmax dmax mi i (d :: ds) =
      (if d < dmax then
        (match sub.get? i, slen.get? i with
          | some c, some sl => some (⟨c :: acc'.newSub, sl :: acc'.newSubLen,
              d :: acc'.newDiv, acc'.branches⟩ : FsbAcc)
          | _, _ => none)
      else if i ≠ mi then
        (match sub.get? i with
          | some c => some (⟨acc'.newSub, acc'.newSubLen, acc'.newDiv,
              (⟨c, slmax + d - dmax⟩ : Branch) :: acc'.branches⟩ : FsbAcc)
          | none => none)
      else some acc') := by
  rw [collectSplit, hrec]

/-- What the splitting loop of the `dividePointIndex[max] >= 1` case
produces: branches from positions with divide index at least `dmax`
(excluding `mi`), and a prefix-node child list drawn pointwise from the
original subtree and subLength lists at divide indices below `dmax`. -/
theorem collectSplit_spec (sub : List BloodTree) (slen : List ℕ)
    (slmax dmax mi : ℕ) :
    ∀ (ds : List ℕ) (i : ℕ) (acc : FsbAcc),
      collectSplit sub slen slmax dmax mi i ds = some acc →
      (∀ br ∈ acc.branches, ∃ k dd, ds.get? k = some dd ∧
          sub.get? (i + k) = some br.branch ∧ dmax ≤ dd ∧ i + k ≠ mi ∧
          br.dividePointIndex = slmax + dd - dmax) ∧
      List.Forall₂ (fun c sl => ∃ k, sub.get? (i + k) = some c ∧
          slen.get? (i + k) = some sl) acc.newSub acc.newSubLen ∧
      (∀ d' ∈ acc.newDiv, d' < dmax) ∧
      acc.newSub.length = acc.newDiv.length ∧
      acc.newSub.length = acc.newSubLen.length := by
  intro ds
  induction ds with
  | nil =>
    intro i acc h
    cases h
    exact ⟨fun br hbr => absurd hbr (List.not_mem_nil br), List.Forall₂.nil,
      fun d' hd' => absurd hd' (List.not_mem_nil d'), rfl, rfl⟩
  | cons d ds ih =>
    intro i acc h
    cases hrec : collectSplit sub slen slmax dmax mi (i + 1) ds with
    | none => rw [collectSplit, hrec] at h; cases h
    | some acc' =>
      obtain ⟨ihbr, ihF, ihdiv, ihl1, ihl2⟩ := ih (i + 1) acc' hrec
      rw [collectSplit_cons_eq hrec] at h
      have hshift : ∀ {c : BloodTree} {sl : ℕ},
          (∃ k, sub.get? (i + 1 + k) = some c ∧ slen.get? (i + 1 + k) = some sl) →
          ∃ k, sub.get? (i + k) = some c ∧ slen.get? (i + k) = some sl := by
        rintro c sl ⟨k, h1, h2⟩
        exact ⟨k + 1, by rwa [show i + (k + 1) = i + 1 + k by omega],
          by rwa [show i + (k + 1) = i + 1 + k by omega]⟩
      by_cases hd : d < dmax
      · rw [if_pos hd] at h
        cases hgc : sub.get? i with
        | none => rw [hgc] at h; exact Option.noConfusion h
        | some c =>
          cases hgs : slen.get? i with
          | none => rw [hgc, hgs] at h; exact Option.noConfusion h
          | some sl =>
            rw [hgc, hgs] at h
            have hacc : (⟨c :: acc'.newSub, sl :: acc'.newSubLen, d :: acc'.newDiv,
                acc'.branches⟩ : FsbAcc) = acc := by
              exact Option.some_injective _ h
            rw [← hacc]
            refine ⟨?_, ?_, ?_, ?_, ?_⟩
            · intro br hbr
              obtain ⟨k, dd, h1, h2, h3, h4, h5⟩ := ihbr br hbr
              refine ⟨k + 1, dd, by simpa using h1, ?_, h3, by omega, h5⟩
              rwa [show i + (k + 1) = (i + 1) + k by omega]
            · refine List.Forall₂.cons ⟨0, by simpa using hgc, by simpa using hgs⟩ ?_
              exact ihF.imp (fun {c' sl'} hc => hshift hc)
            · intro d' hd'
              rcases List.mem_cons.mp hd' with rfl | hd''
              · exact hd
              · exact ihdiv d' hd''
            · simpa using ihl1
            · simpa using ihl2
      · rw [if_neg hd] at h
        by_cases hi : i ≠ mi
        · rw [if_pos hi] at h
          cases hgc : sub.get? i with
          | none => rw [hgc] at h; exact Option.noConfusion h
          | some c =>
            rw [hgc] at h
            have hacc : (⟨acc'.newSub, acc'.newSubLen, acc'.newDiv,
                (⟨c, slmax + d - dmax⟩ : Branch) :: acc'.branches⟩ : FsbAcc) = acc := by
              exact Option.some_injective _ h
            rw [← hacc]
            refine ⟨?_, ihF.imp (fun {c' sl'} hc => hshift hc), ihdiv, ihl1, ihl2⟩
            intro br hbr
            rcases List.mem_cons.mp hbr with rfl | hbr'
            · exact ⟨0, d, rfl, by simpa using hgc, by omega, by simpa using hi, rfl⟩
            · obtain ⟨k, dd, h1, h2, h3, h4, h5⟩ := ihbr br hbr'
              refine ⟨k + 1, dd, by simpa using h1, ?_, h3, by omega, h5⟩
              rwa [show i + (k + 1) = (i + 1) + k by omega]
        · rw [if_neg hi] at h
          have hacc : acc' = acc := Option.some_injective _ h
          rw [← hacc]
          refine ⟨?_, ihF.imp (fun {c' sl'} hc => hshift hc), ihdiv, ihl1, ihl2⟩
          intro br hbr
          obtain ⟨k, dd, h1, h2, h3, h4, h5⟩ := ihbr br hbr
          refine ⟨k + 1, dd, by simpa using h1, ?_, h3, by omega, h5⟩
          rwa [show i + (k + 1) = (i + 1) + k by omega]

/-- A member of the left list of a `Forall₂` is related to some member of
the right list. -/
theorem forall₂_mem_left {α β : Type} {R : α → β → Prop} :
    ∀ {l : List α} {r : List β}, List.Forall₂ R l r →
      ∀ {x : α}, x ∈ l → ∃ b ∈ r, R x b := by
  intro l r h
  induction h with
  | nil => intro x hx; cases hx
  | cons hg _ ih =>
    intro x hx
    rcases List.mem_cons.mp hx with rfl | hx'
    · exact ⟨_, List.mem_cons_self _ _, hg⟩
    · obtain ⟨b, hb, hr⟩ := ih hx'
      exact ⟨b, List.mem_cons_of_mem _ hb, hr⟩

/-- One unfold step of `find_small_branches` on a branching node with the
`argmax` reads resolved. -/
theorem fsb_succ_eq (k : ℕ) (t : BloodTree) (dmax slmax : ℕ) (cmax : BloodTree)
    (h1 : t.subtree.isEmpty = false) (h2 : t.subLength.isEmpty = false)
    (hgd : t.dividePointIndex.get? (argmaxIdx t.subLength) = some dmax)
    (hgs : t.subLength.get? (argmaxIdx t.subLength) = some slmax)
    (hgc : t.subtree.get? (argmaxIdx t.subLength) = some cmax) :
    find_small_branches (k + 1) t =
      (if dmax = 0 then
        match collectSibs t.subtree slmax dmax (argmaxIdx t.subLength) 0
            t.dividePointIndex, find_small_branches k cmax with
        | some bs, some deeper => some (bs ++ deeper)
        | _, _ => none
      else
        match collectSplit t.subtree t.subLength slmax dmax
            (argmaxIdx t.subLength) 0 t.dividePointIndex,
            find_small_branches k cmax with
        | some acc, some deeper =>
          some (acc.branches ++ [⟨BloodTree.mk (t.line.take dmax) acc.newSub []
            acc.newSubLen acc.newDiv 999, slmax⟩] ++ deeper)
        | _, _ => none) := by
  rw [find_small_branches]
  simp only [h1, h2, hgd, hgs, hgc, Bool.false_eq_true, if_false]

/-- On a well-annotated tree, every small branch `find_small_branches`
collects is itself well-annotated, and its translated attachment offset is
strictly below the node's greedy backbone length. -/
theorem fsb_spec : ∀ (f : ℕ) (t : BloodTree) (brs : List Branch), WA t →
    find_small_branches f t = some brs →
    ∀ br ∈ brs, WA br.branch ∧ ∀ n, GlenIs t n → br.dividePointIndex < n := by
  intro f
  induction f with
  | zero =>
    intro t brs _ h
    simp [find_small_branches] at h
  | succ k ih =>
    intro t brs hwa h br hbr
    cases hwa with
    | mk line sub deep slen divs ly hline hld hls hdiv hF hsub =>
      by_cases hse : sub.isEmpty
      · rw [find_small_branches] at h
        simp only [subtree_mk, hse, if_true] at h
        have : brs = [] := Option.some_injective _ h.symm
        subst this
        cases hbr
      · have hsubne : sub ≠ [] := by
          cases sub
          · exact absurd rfl hse
          · exact List.cons_ne_nil _ _
        have hslenne : slen ≠ [] := by
          intro hn
          rw [hn] at hls
          simp only [List.length_nil] at hls
          exact hsubne (List.eq_nil_of_length_eq_zero hls)
        have hse' : sub.isEmpty = false := by
          cases hq : sub.isEmpty
          · rfl
          · exact absurd hq (by simpa [List.isEmpty_iff] using hsubne)
        have hsle' : slen.isEmpty = false := by
          cases hq : slen.isEmpty
          · rfl
          · exact absurd hq (by simpa [List.isEmpty_iff] using hslenne)
        have hmilt : argmaxIdx slen < slen.length := argmaxIdx_lt slen hslenne
        obtain ⟨dmax, hgd⟩ : ∃ x, divs.get? (argmaxIdx slen) = some x :=
          ⟨_, List.get?_eq_get (by omega)⟩
        obtain ⟨slmax, hgs⟩ : ∃ x, slen.get? (argmaxIdx slen) = some x :=
          ⟨_, List.get?_eq_get (by omega)⟩
        obtain ⟨cmax, hgc⟩ : ∃ x, sub.get? (argmaxIdx slen) = some x :=
          ⟨_, List.get?_eq_get (by omega)⟩
        rw [fsb_succ_eq k (BloodTree.mk line sub deep slen divs ly) dmax slmax cmax
          hse' hsle' hgd hgs hgc] at h
        simp only [subtree_mk, subLength_mk, dividePointIndex_mk, line_mk] at h
        have hwa' : WA (BloodTree.mk line sub deep slen divs ly) :=
          WA.mk line sub deep slen divs ly hline hld hls hdiv hF hsub
        have hslmax : slmax = maxList slen := by
          have := get?_argmaxIdx slen hslenne
          rw [hgs] at this
          exact Option.some_injective _ this
        have hdmaxlt : dmax < line.length := hdiv dmax (List.get?_mem hgd)
        have hGcmax : GlenIs cmax slmax := forall₂_get?_rel hF hgc hgs
        have hWAcmax : WA cmax := hsub _ (List.get?_mem hgc)
        have hGt : ∀ n, GlenIs (BloodTree.mk line sub deep slen divs ly) n →
            n = slmax + (line.length - dmax) := by
          intro n hn
          have hv := glenIs_val_internal hwa' hn hsubne
          rw [hgd] at hv
          rw [hv, hslmax, List.length_drop]
          rfl
        by_cases hdz : dmax = 0
        · rw [if_pos hdz] at h
          cases hcol : collectSibs sub slmax dmax (argmaxIdx slen) 0 divs with
          | none => rw [hcol] at h; cases hq : find_small_branches k cmax <;>
              rw [hq] at h <;> exact Option.noConfusion h
          | some bs =>
            cases hrec2 : find_small_branches k cmax with
            | none => rw [hcol, hrec2] at h; exact Option.noConfusion h
            | some deeper =>
              rw [hcol, hrec2] at h
              have hbrs : bs ++ deeper = brs := Option.some_injective _ h
              rw [← hbrs] at hbr
              rcases List.mem_append.mp hbr with hmem | hmem
              · obtain ⟨j, dd, hj1, hj2, hj3, hj4⟩ :=
                  collectSibs_mem sub slmax dmax (argmaxIdx slen) divs 0 bs hcol br hmem
                simp only [Nat.zero_add] at hj2
                have hwabr : WA br.branch := hsub _ (List.get?_mem hj2)
                refine ⟨hwabr, fun n hn => ?_⟩
                have hddlt : dd < line.length := hdiv dd (List.get?_mem hj1)
                have := hGt n hn
                omega
              · obtain ⟨hwabr, hofs⟩ := ih cmax deeper hWAcmax hrec2 br hmem
                refine ⟨hwabr, fun n hn => ?_⟩
                have h1 := hofs slmax hGcmax
                have := hGt n hn
                omega
        · rw [if_neg hdz] at h
          cases hcol : collectSplit sub slen slmax dmax (argmaxIdx slen) 0 divs with
          | none => rw [hcol] at h; cases hq : find_small_branches k cmax <;>
              rw [hq] at h <;> exact Option.noConfusion h
          | some acc =>
            cases hrec2 : find_small_branches k cmax with
            | none => rw [hcol, hrec2] at h; exact Option.noConfusion h
            | some deeper =>
              rw [hcol, hrec2] at h
              have hbrs : acc.branches ++ [⟨BloodTree.mk (line.take dmax) acc.newSub []
                  acc.newSubLen acc.newDiv 999, slmax⟩] ++ deeper = brs :=
                Option.some_injective _ h
              rw [← hbrs] at hbr
              obtain ⟨hbrspec, hFnew, hdivnew, hl1, hl2⟩ :=
                collectSplit_spec sub slen slmax dmax (argmaxIdx slen) divs 0 acc hcol
              rcases List.mem_append.mp hbr with hmem | hmem
              swap
              · obtain ⟨hwabr, hofs⟩ := ih cmax deeper hWAcmax hrec2 br hmem
                refine ⟨hwabr, fun n hn => ?_⟩
                have h1 := hofs slmax hGcmax
                have := hGt n hn
                omega
              rcases List.mem_append.mp hmem with hmem2 | hmem2
              · obtain ⟨j, dd, hj1, hj2, hj3, hj4, hj5⟩ := hbrspec br hmem2
                simp only [Nat.zero_add] at hj2
                have hwabr : WA br.branch := hsub _ (List.get?_mem hj2)
                refine ⟨hwabr, fun n hn => ?_⟩
                have hddlt : dd < line.length := hdiv dd (List.get?_mem hj1)
                have := hGt n hn
                omega
              · have hbreq : br = ⟨BloodTree.mk (line.take dmax) acc.newSub []
                    acc.newSubLen acc.newDiv 999, slmax⟩ := by
                  simpa using hmem2
                subst hbreq
                have hdpos : 1 ≤ dmax := by omega
                have htk : (line.take dmax).length = dmax := by
                  rw [List.length_take]
                  omega
                refine ⟨?_, fun n hn => ?_⟩
                · refine WA.mk _ _ _ _ _ _ ?_ ?_ ?_ ?_ ?_ ?_
                  · intro hnil
                    have := congrArg List.length hnil
                    rw [htk] at this
                    simp at this
                    omega
                  · omega
                  · omega
                  · intro d' hd'
                    rw [htk]
                    exact hdivnew d' hd'
                  · refine hFnew.imp (fun {c sl} hc => ?_)
                    obtain ⟨j, hc1, hc2⟩ := hc
                    exact forall₂_get?_rel hF hc1 hc2
                  · intro c hc
                    obtain ⟨sl, _, hrel⟩ := forall₂_mem_left hFnew hc
                    obtain ⟨j, hc1, _⟩ := hrel
                    exact hsub _ (List.get?_mem hc1)
                · have := hGt n hn
                  simp only [dividePointIndex_mk]
                  omega

/-! ### The canonicalization fold -/

/-- Inversion of one `cntStep`. -/
theorem cntStep_some {g : BloodTree → Option BloodTree} {acc : BloodTree}
    {br : Branch} {acc2 : BloodTree} (h : cntStep g acc br = some acc2) :
    ∃ child, g br.branch = some child ∧
      acc2 = BloodTree.mk acc.line (acc.subtree ++ [child]) acc.deep
        (if br.branch.subLength.isEmpty then acc.subLength
          else acc.subLength ++ [maxList br.branch.subLength])
        (acc.dividePointIndex ++ [br.dividePointIndex]) acc.layer := by
  unfold cntStep at h
  cases hg : g br.branch with
  | none => rw [hg] at h; exact Option.noConfusion h
  | some child =>
    rw [hg] at h
    exact ⟨child, rfl, (Option.some_injective _ h).symm⟩

/-- An invariant preserved by every `cntStep` holds for the result of the
branch fold of `create_new_tree_from_old`. -/
theorem cntStep_foldlM_inv (g : BloodTree → Option BloodTree)
    (I : BloodTree → Prop) :
    ∀ (brs : List Branch) (acc res : BloodTree),
      (∀ acc' br child, br ∈ brs → I acc' → g br.branch = some child →
        I (BloodTree.mk acc'.line (acc'.subtree ++ [child]) acc'.deep
          (if br.branch.subLength.isEmpty then acc'.subLength
            else acc'.subLength ++ [maxList br.branch.subLength])
          (acc'.dividePointIndex ++ [br.dividePointIndex]) acc'.layer)) →
      I acc → brs.foldlM (cntStep g) acc = some res → I res := by
  intro brs
  induction brs with
  | nil =>
    intro acc res _ hacc h
    have : acc = res := Option.some_injective _ h
    exact this ▸ hacc
  | cons br brs ih =>
    intro acc res hstep hacc h
    rw [List.foldlM_cons] at h
    cases hs : cntStep g acc br with
    | none => rw [hs] at h; exact Option.noConfusion h
    | some acc2 =>
      rw [hs] at h
      obtain ⟨child, hchild, hacc2⟩ := cntStep_some hs
      refine ih acc2 res
        (fun a b c hb ha hc => hstep a b c (List.mem_cons_of_mem _ hb) ha hc)
        ?_ h
      rw [hacc2]
      exact hstep acc br child (List.mem_cons_self _ _) hacc hchild

/-! ### `assign_depth` computes the greedy length -/

/-- Running the `assign_depth` child loop over the remaining children tracks
exactly the `adStep` fold over the children's greedy lengths. -/
theorem adFoldM_rel (f : ℕ) (divs : List ℕ) :
    ∀ (cs : List BloodTree),
      (∀ c ∈ cs, ∀ r, assign_depth f c = some r → glenF f c = some r.2.2) →
      ∀ (i : ℕ) (acc st : ADAcc),
        (cs.enumFrom i).foldlM (adStepM (assign_depth f) divs) acc = some st →
        ∃ ls, mapO (glenF f) cs = some ls ∧
          (st.maxLength, st.maxLengthInd) =
            (ls.enumFrom i).foldl (adStep divs) (acc.maxLength, acc.maxLengthInd) := by
  intro cs
  induction cs with
  | nil =>
    intro _ i acc st h
    have heq : acc = st := Option.some_injective _ h
    subst heq
    exact ⟨[], rfl, rfl⟩
  | cons c cs ih =>
    intro hrec i acc st h
    rw [List.enumFrom, List.foldlM_cons] at h
    cases hs : adStepM (assign_depth f) divs acc (i, c) with
    | none => rw [hs] at h; exact Option.noConfusion h
    | some acc1 =>
      rw [hs] at h
      have h2 : (List.enumFrom (i + 1) cs).foldlM
          (adStepM (assign_depth f) divs) acc1 = some st := h
      unfold adStepM at hs
      cases had : assign_depth f c with
      | none => rw [had] at hs; exact Option.noConfusion hs
      | some r =>
        rw [had] at hs
        cases hgi : divs.get? i with
        | none => rw [hgi] at hs; exact Option.noConfusion hs
        | some index =>
          rw [hgi] at hs
          have hs2 : (if r.2.2 > acc.maxLength then
              some (⟨acc.newSub ++ [r.1], acc.deepAdd ++ [r.2.1],
                acc.lenAdd ++ [r.2.2], max r.2.1 acc.maxDeep, r.2.2, index⟩ : ADAcc)
            else some (⟨acc.newSub ++ [r.1], acc.deepAdd ++ [r.2.1],
                acc.lenAdd ++ [r.2.2], max r.2.1 acc.maxDeep, acc.maxLength,
                acc.maxLengthInd⟩ : ADAcc)) = some acc1 := hs
          have hglen : glenF f c = some r.2.2 :=
            hrec c (List.mem_cons_self _ _) r had
          obtain ⟨ls, hls, hfold⟩ := ih
            (fun c' hc' r' h' => hrec c' (List.mem_cons_of_mem _ hc') r' h')
            (i + 1) acc1 st h2
          refine ⟨r.2.2 :: ls, by simp [mapO, hglen, hls], ?_⟩
          rw [List.enumFrom, List.foldl_cons, hfold]
          congr 1
          by_cases himp : r.2.2 > acc.maxLength
          · rw [if_pos himp] at hs2
            have hacc1 : acc1 = ⟨acc.newSub ++ [r.1], acc.deepAdd ++ [r.2.1],
                acc.lenAdd ++ [r.2.2], max r.2.1 acc.maxDeep, r.2.2, index⟩ :=
              (Option.some_injective _ hs2).symm
            rw [hacc1, adStep, if_pos himp, hgi]
            rfl
          · rw [if_neg himp] at hs2
            have hacc1 : acc1 = ⟨acc.newSub ++ [r.1], acc.deepAdd ++ [r.2.1],
                acc.lenAdd ++ [r.2.2], max r.2.1 acc.maxDeep, acc.maxLength,
                acc.maxLengthInd⟩ :=
              (Option.some_injective _ hs2).symm
            rw [hacc1, adStep, if_neg himp]

/-- The length `assign_depth` returns is the greedy length `glenF`
computes. -/
theorem ad_len_glen : ∀ (f : ℕ) (t : BloodTree) (r : BloodTree × ℕ × ℕ),
    assign_depth f t = some r → glenF f t = some r.2.2 := by
  intro f
  induction f with
  | zero =>
    intro t r h
    simp [assign_depth] at h
  | succ k ih =>
    intro t r h
    rw [assign_depth] at h
    cases hst : t.subtree.enum.foldlM (adStepM (assign_depth k) t.dividePointIndex)
        ⟨[], [], [], 0, 0, 0⟩ with
    | none => rw [hst] at h; exact Option.noConfusion h
    | some st =>
      rw [hst] at h
      have hr : (BloodTree.mk t.line st.newSub (t.deep ++ st.deepAdd)
          (t.subLength ++ st.lenAdd) t.dividePointIndex t.layer,
          st.maxDeep + 1, st.maxLength + (t.line.drop st.maxLengthInd).length) = r :=
        Option.some_injective _ h
      obtain ⟨ls, hls, hfold⟩ := adFoldM_rel k t.dividePointIndex t.subtree
        (fun c _ r' h' => ih c r' h') 0 ⟨[], [], [], 0, 0, 0⟩ st (by
          rw [show List.enumFrom 0 t.subtree = t.subtree.enum from rfl]
          exact hst)
      rw [glenF, hls]
      have hmm : (st.maxLength, st.maxLengthInd) = adFold t.dividePointIndex ls := by
        rw [adFold, hfold]
        rfl
      rw [← hr]
      have h1 : (adFold t.dividePointIndex ls).1 = st.maxLength := by rw [← hmm]
      have h2 : (adFold t.dividePointIndex ls).2 = st.maxLengthInd := by rw [← hmm]
      simp [h1, h2]

/-! ### Claim theorems on canonicalization -/

/-- **C1** (amended): for every well-annotated raw tree, the canonical tree
produced by `create_new_tree_from_old` has a root line whose number of
points equals the length value `assign_depth` computes — the greedy
heavy-child path count (follow the child of maximal `subLength`, ties to the
first, then add the points of the own line from that child's divide index
on).  By `c1_counterexample_backbone_not_longest` this greedy count can be
strictly smaller than the true maximum root-to-leaf count. -/
theorem c1_amended_backbone_is_greedy_length :
    ∀ (fa fc : ℕ) (t : BloodTree) (r : BloodTree × ℕ × ℕ) (nt : BloodTree),
      WA t → assign_depth fa t = some r →
      create_new_tree_from_old fc t = some nt →
      nt.line.length = r.2.2 := by
  intro fa fc t r nt hwa had hcnt
  cases fc with
  | zero => simp [create_new_tree_from_old] at hcnt
  | succ k =>
    rw [create_new_tree_from_old] at hcnt
    cases hfll : find_longest_line (k + 1) t with
    | none => rw [hfll] at hcnt; exact Option.noConfusion hcnt
    | some newLine =>
      cases hfsb : find_small_branches (k + 1) t with
      | none => rw [hfll, hfsb] at hcnt; exact Option.noConfusion hcnt
      | some brs =>
        rw [hfll, hfsb] at hcnt
        have hfold : brs.foldlM (cntStep (create_new_tree_from_old k))
            (BloodTree.mk newLine [] [] [] [] 0) = some nt := hcnt
        have hline : nt.line = newLine := by
          refine cntStep_foldlM_inv (create_new_tree_from_old k)
            (fun acc => acc.line = newLine) brs
            (BloodTree.mk newLine [] [] [] [] 0) nt ?_ rfl hfold
          intro acc' br child _ hacc _
          simpa using hacc
        have h1 : GlenIs t newLine.length := fll_glenIs (k + 1) t newLine hwa hfll
        have h2 : GlenIs t r.2.2 := ⟨fa, ad_len_glen fa t r had⟩
        rw [hline]
        exact glenIs_func h1 h2

/-- A leaf tree is well-annotated. -/
theorem wa_leafT : WA (BloodTree.mk leafLine [] [] [] [] 0) :=
  WA.mk leafLine [] [] [] [] 0 (by decide) rfl rfl (by simp)
    List.Forall₂.nil (by simp)

/-- Witness for `c1_amended_backbone_is_greedy_length` at the one-pair leaf
tree. -/
theorem c1_amended_witness :
    (BloodTree.mk leafLine [] [] [] [] 0).line.length =
      ((BloodTree.mk leafLine [] [] [] [] 0, 1, 1) :
        BloodTree × ℕ × ℕ).2.2 :=
  c1_amended_backbone_is_greedy_length 1 1 (BloodTree.mk leafLine [] [] [] [] 0)
    (BloodTree.mk leafLine [] [] [] [] 0, 1, 1)
    (BloodTree.mk leafLine [] [] [] [] 0) wa_leafT rfl rfl

/-- **C7**: for every well-annotated raw tree, every `dividePointIndex`
entry of every node of the canonical tree returned by
`create_new_tree_from_old` is a valid index into that node's own line. -/
theorem c7_divide_indices_valid :
    ∀ (f : ℕ) (t nt : BloodTree), WA t →
      create_new_tree_from_old f t = some nt →
      AllNodes (fun n => ∀ d ∈ n.dividePointIndex, d < n.line.length) nt := by
  intro f
  induction f with
  | zero =>
    intro t nt _ h
    simp [create_new_tree_from_old] at h
  | succ k ih =>
    intro t nt hwa h
    rw [create_new_tree_from_old] at h
    cases hfll : find_longest_line (k + 1) t with
    | none => rw [hfll] at h; exact Option.noConfusion h
    | some newLine =>
      cases hfsb : find_small_branches (k + 1) t with
      | none => rw [hfll, hfsb] at h; exact Option.noConfusion h
      | some brs =>
        rw [hfll, hfsb] at h
        have hfold : brs.foldlM (cntStep (create_new_tree_from_old k))
            (BloodTree.mk newLine [] [] [] [] 0) = some nt := h
        have hlen : GlenIs t newLine.length := fll_glenIs (k + 1) t newLine hwa hfll
        have hspec := fsb_spec (k + 1) t brs hwa hfsb
        have hinv := cntStep_foldlM_inv (create_new_tree_from_old k)
          (fun acc => acc.line = newLine ∧
            (∀ d ∈ acc.dividePointIndex, d < newLine.length) ∧
            (∀ c ∈ acc.subtree,
              AllNodes (fun n => ∀ d ∈ n.dividePointIndex, d < n.line.length) c))
          brs (BloodTree.mk newLine [] [] [] [] 0) nt ?step
          ⟨rfl, by simp, by simp⟩ hfold
        case step =>
          intro acc' br child hbr hI hchild
          obtain ⟨hl, hd, hc⟩ := hI
          refine ⟨by simpa using hl, ?_, ?_⟩
          · intro d hd'
            simp only [dividePointIndex_mk] at hd'
            rcases List.mem_append.mp hd' with hmem | hmem
            · exact hd d hmem
            · have heq : d = br.dividePointIndex := by simpa using hmem
              subst heq
              exact (hspec br hbr).2 newLine.length hlen
          · intro c hc'
            simp only [subtree_mk] at hc'
            rcases List.mem_append.mp hc' with hmem | hmem
            · exact hc c hmem
            · have heq : c = child := by simpa using hmem
              rw [heq]
              exact ih br.branch child (hspec br hbr).1 hchild
        obtain ⟨hl, hd, hc⟩ := hinv
        refine AllNodes.mk nt ?_ hc
        intro d hdm
        rw [hl]
        exact hd d hdm

/-- Witness for `c7_divide_indices_valid` at the one-pair leaf tree. -/
theorem c7_witness :
    AllNodes (fun n => ∀ d ∈ n.dividePointIndex, d < n.line.length)
      (BloodTree.mk leafLine [] [] [] [] 0) :=
  c7_divide_indices_valid 1 (BloodTree.mk leafLine [] [] [] [] 0)
    (BloodTree.mk leafLine [] [] [] [] 0) wa_leafT rfl

/-- **C10**: every node of a tree returned by `create_new_tree_from_old`
has as many `subtree` entries as `dividePointIndex` entries, but `subLength`
receives an entry only for branches whose own `subLength` is non-empty, so
`len(subLength)` can be strictly smaller than `len(subtree)` — concretely,
canonicalizing the annotated `c10Raw` (whose collected branch is a leaf)
yields a root with 1 subtree entry, 1 dividePointIndex entry and 0
subLength entries. -/
theorem c10_subtree_divide_parallel_subLength_not :
    (∀ (f : ℕ) (t nt : BloodTree), create_new_tree_from_old f t = some nt →
      AllNodes (fun n => n.subtree.length = n.dividePointIndex.length) nt) ∧
    ((assign_depth 100 c10Raw).bind
        (fun r => create_new_tree_from_old 100 r.1)).map
      (fun t => (t.subtree.length, t.subLength.length,
        t.dividePointIndex.length)) = some (1, 0, 1) := by
  constructor
  · intro f
    induction f with
    | zero =>
      intro t nt h
      simp [create_new_tree_from_old] at h
    | succ k ih =>
      intro t nt h
      rw [create_new_tree_from_old] at h
      cases hfll : find_longest_line (k + 1) t with
      | none => rw [hfll] at h; exact Option.noConfusion h
      | some newLine =>
        cases hfsb : find_small_branches (k + 1) t with
        | none => rw [hfll, hfsb] at h; exact Option.noConfusion h
        | some brs =>
          rw [hfll, hfsb] at h
          have hfold : brs.foldlM (cntStep (create_new_tree_from_old k))
              (BloodTree.mk newLine [] [] [] [] 0) = some nt := h
          have hinv := cntStep_foldlM_inv (create_new_tree_from_old k)
            (fun acc => acc.subtree.length = acc.dividePointIndex.length ∧
              (∀ c ∈ acc.subtree,
                AllNodes (fun n => n.subtree.length = n.dividePointIndex.length) c))
            brs (BloodTree.mk newLine [] [] [] [] 0) nt ?stepc
            ⟨rfl, by simp⟩ hfold
          case stepc =>
            intro acc' br child hbr hI hchild
            obtain ⟨hl, hc⟩ := hI
            refine ⟨by simp [hl], ?_⟩
            intro c hc'
            simp only [subtree_mk] at hc'
            rcases List.mem_append.mp hc' with hmem | hmem
            · exact hc c hmem
            · have heq : c = child := by simpa using hmem
              rw [heq]
              exact ih br.branch child hchild
          exact AllNodes.mk nt hinv.1 hinv.2
  · decide

/-- Witness for the universal half of
`c10_subtree_divide_parallel_subLength_not` at the one-pair leaf tree. -/
theorem c10_witness :
    AllNodes (fun n => n.subtree.length = n.dividePointIndex.length)
      (BloodTree.mk leafLine [] [] [] [] 0) :=
  c10_subtree_divide_parallel_subLength_not.1 1
    (BloodTree.mk leafLine [] [] [] [] 0)
    (BloodTree.mk leafLine [] [] [] [] 0) rfl

/-- **C8** (amended): canonicalizing an already-canonical tree that has no
side branches, after resetting and re-running depth annotation exactly as
`get_all_lines_and_tree` does, yields a tree with the same backbone line.
(With side branches the backbone can change, see
`c8_counterexample_backbone_changes`.) -/
theorem c8_amended_leaf_idempotence :
    ∀ (t : BloodTree) (f1 f2 f3 : ℕ) (r : BloodTree × ℕ × ℕ) (nt : BloodTree),
      t.subtree = [] → 0 < f1 → 0 < f2 → 0 < f3 →
      assign_depth f2 (empty_depth_info f1 t) = some r →
      create_new_tree_from_old f3 r.1 = some nt →
      nt.line = t.line := by
  intro t f1 f2 f3 r nt hsub h1 h2 h3 had hcnt
  cases t with
  | mk l sub d sl dv ly =>
    simp only [subtree_mk] at hsub
    subst hsub
    obtain ⟨a, rfl⟩ : ∃ a, f1 = a + 1 := ⟨f1 - 1, by omega⟩
    obtain ⟨b, rfl⟩ : ∃ b, f2 = b + 1 := ⟨f2 - 1, by omega⟩
    obtain ⟨c, rfl⟩ : ∃ c, f3 = c + 1 := ⟨f3 - 1, by omega⟩
    have hed : empty_depth_info (a + 1) (BloodTree.mk l [] d sl dv ly) =
        BloodTree.mk l [] d [] dv ly := by
      rw [empty_depth_info]
      rfl
    rw [hed] at had
    rw [assign_depth] at had
    have had2 : (some (BloodTree.mk l [] (d ++ []) (([] : List ℕ) ++ []) dv ly, 1,
        0 + (l.drop 0).length) : Option (BloodTree × ℕ × ℕ)) = some r := had
    have hr1 : r.1 = BloodTree.mk l [] (d ++ []) (([] : List ℕ) ++ []) dv ly := by
      rw [← Option.some_injective _ had2]
    rw [hr1] at hcnt
    rw [create_new_tree_from_old] at hcnt
    have hfll : find_longest_line (c + 1)
        (BloodTree.mk l [] (d ++ []) (([] : List ℕ) ++ []) dv ly) = some l := by
      rw [find_longest_line, if_neg (by simp)]
      rfl
    have hfsb : find_small_branches (c + 1)
        (BloodTree.mk l [] (d ++ []) (([] : List ℕ) ++ []) dv ly) = some [] := by
      rw [find_small_branches]
      rfl
    rw [hfll, hfsb] at hcnt
    have hcnt2 : (some (BloodTree.mk l [] [] [] [] 0) : Option BloodTree) =
        some nt := hcnt
    have := Option.some_injective _ hcnt2
    rw [← this]
    rfl

/-- Witness for `c8_amended_leaf_idempotence` at a leaf with stale
annotation entries. -/
theorem c8_amended_witness :
    (BloodTree.mk leafLine [] [] [] [] 0).line = leafStale.line :=
  c8_amended_leaf_idempotence leafStale 1 1 1
    (BloodTree.mk leafLine [] [3] [] [] 7, 1, 1)
    (BloodTree.mk leafLine [] [] [] [] 0) rfl (by decide) (by decide) (by decide)
    rfl rfl

/-! ### The labeling BFS: neighbor-scan lemmas -/

/-- Reading an overwrite list at a different voxel. -/
theorem lookupGrade_cons_ne {q : Pt} {v : ℕ} {g : Grades} {p : Pt} (h : q ≠ p) :
    lookupGrade ((q, v) :: g) p = lookupGrade g p := by
  rw [lookupGrade, if_neg h]

/-- Reading an overwrite list at the voxel just written. -/
theorem lookupGrade_cons_self {q : Pt} {v : ℕ} {g : Grades} :
    lookupGrade ((q, v) :: g) q = v := by
  rw [lookupGrade, if_pos rfl]

/-- Unfold of the neighbor scan at a qualifying neighbor. -/
theorem pn_cons_pos {sh : Shape} {mask : Pt → Bool} {pos : Pt} {cg : ℕ}
    {d : Pt} {ds : List Pt} {g : Grades} {c : ℕ}
    (hcond : (inBoundsB sh (addPt pos d) && mask (addPt pos d) &&
      (lookupGrade g (addPt pos d) == 0)) = true) :
    processNeighbors sh mask pos cg (d :: ds) g c =
      ⟨(processNeighbors sh mask pos cg ds
          ((addPt pos d, if c + 1 > 1 then cg + 1 else cg) :: g) (c + 1)).grades,
        (addPt pos d, (if c + 1 > 1 then cg + 1 else cg), pos) ::
          (processNeighbors sh mask pos cg ds
            ((addPt pos d, if c + 1 > 1 then cg + 1 else cg) :: g) (c + 1)).queueAdd,
        ((if c + 1 > 1 then cg + 1 else cg), addPt pos d, pos) ::
          (processNeighbors sh mask pos cg ds
            ((addPt pos d, if c + 1 > 1 then cg + 1 else cg) :: g) (c + 1)).pairsAdd,
        (processNeighbors sh mask pos cg ds
          ((addPt pos d, if c + 1 > 1 then cg + 1 else cg) :: g) (c + 1)).connections⟩ := by
  rw [processNeighbors, if_pos hcond]

/-- Unfold of the neighbor scan at a non-qualifying neighbor. -/
theorem pn_cons_neg {sh : Shape} {mask : Pt → Bool} {pos : Pt} {cg : ℕ}
    {d : Pt} {ds : List Pt} {g : Grades} {c : ℕ}
    (hcond : ¬ (inBoundsB sh (addPt pos d) && mask (addPt pos d) &&
      (lookupGrade g (addPt pos d) == 0)) = true) :
    processNeighbors sh mask pos cg (d :: ds) g c =
      processNeighbors sh mask pos cg ds g c := by
  rw [processNeighbors, if_neg hcond]

/-- The neighbor scan never rewrites a labeled voxel. -/
theorem pn_stable (sh : Shape) (mask : Pt → Bool) (pos : Pt) (cg : ℕ) :
    ∀ (ds : List Pt) (g : Grades) (c : ℕ) (p : Pt),
      lookupGrade g p ≠ 0 →
      lookupGrade (processNeighbors sh mask pos cg ds g c).grades p =
        lookupGrade g p := by
  intro ds
  induction ds with
  | nil => intro g c p _; rfl
  | cons d ds ih =>
    intro g c p hp
    by_cases hcond : (inBoundsB sh (addPt pos d) && mask (addPt pos d) &&
        (lookupGrade g (addPt pos d) == 0)) = true
    · rw [pn_cons_pos hcond]
      have h0 : lookupGrade g (addPt pos d) = 0 :=
        beq_iff_eq.mp ((Bool.and_eq_true _ _).mp hcond).2
      have hne : addPt pos d ≠ p := fun he => hp (he ▸ h0)
      have hlk : lookupGrade ((addPt pos d,
          if c + 1 > 1 then cg + 1 else cg) :: g) p = lookupGrade g p :=
        lookupGrade_cons_ne hne
      show lookupGrade (processNeighbors sh mask pos cg ds
          ((addPt pos d, if c + 1 > 1 then cg + 1 else cg) :: g) (c + 1)).grades p =
        lookupGrade g p
      rw [ih _ _ p (by rw [hlk]; exact hp), hlk]
    · rw [pn_cons_neg hcond]
      exact ih g c p hp

/-- The recorded pairs of one scan are its queue additions, re-tupled. -/
theorem pn_pairs_eq_queue (sh : Shape) (mask : Pt → Bool) (pos : Pt) (cg : ℕ) :
    ∀ (ds : List Pt) (g : Grades) (c : ℕ),
      (processNeighbors sh mask pos cg ds g c).pairsAdd =
        (processNeighbors sh mask pos cg ds g c).queueAdd.map
          (fun e => (e.2.1, e.1, e.2.2)) := by
  intro ds
  induction ds with
  | nil => intro g c; rfl
  | cons d ds ih =>
    intro g c
    by_cases hcond : (inBoundsB sh (addPt pos d) && mask (addPt pos d) &&
        (lookupGrade g (addPt pos d) == 0)) = true
    · rw [pn_cons_pos hcond]
      show _ :: _ = _ :: _
      rw [ih]
    · rw [pn_cons_neg hcond]
      exact ih g c

/-- Every queue entry produced by one neighbor scan: it carries the final
grade of its voxel, that grade is `cg` or `cg + 1`, its recorded parent is
the scanned voxel, and the voxel was unlabeled, in bounds, masked, and
adjacent through one of the scanned directions. -/
theorem pn_queue_spec (sh : Shape) (mask : Pt → Bool) (pos : Pt) (cg : ℕ)
    (hcg : 1 ≤ cg) :
    ∀ (ds : List Pt) (g : Grades) (c : ℕ),
      ∀ e ∈ (processNeighbors sh mask pos cg ds g c).queueAdd,
        lookupGrade (processNeighbors sh mask pos cg ds g c).grades e.1 = e.2.1 ∧
        (e.2.1 = cg ∨ e.2.1 = cg + 1) ∧ e.2.2 = pos ∧ lookupGrade g e.1 = 0 ∧
        inBoundsB sh e.1 = true ∧ mask e.1 = true ∧ ∃ d' ∈ ds, e.1 = addPt pos d' := by
  intro ds
  induction ds with
  | nil => intro g c e he; cases he
  | cons d ds ih =>
    intro g c e he
    by_cases hcond : (inBoundsB sh (addPt pos d) && mask (addPt pos d) &&
        (lookupGrade g (addPt pos d) == 0)) = true
    · have hb1 := (Bool.and_eq_true _ _).mp hcond
      have hb2 := (Bool.and_eq_true _ _).mp hb1.1
      have h0 : lookupGrade g (addPt pos d) = 0 := beq_iff_eq.mp hb1.2
      rw [pn_cons_pos hcond] at he ⊢
      rcases List.mem_cons.mp he with rfl | he'
      · refine ⟨?_, ?_, rfl, h0, hb2.1, hb2.2, ⟨d, List.mem_cons_self _ _, rfl⟩⟩
        · show lookupGrade (processNeighbors sh mask pos cg ds
              ((addPt pos d, if c + 1 > 1 then cg + 1 else cg) :: g) (c + 1)).grades
              (addPt pos d) = _
          rw [pn_stable sh mask pos cg ds _ _ _
            (by rw [lookupGrade_cons_self]; split <;> omega),
            lookupGrade_cons_self]
        · split <;> [exact Or.inr rfl; exact Or.inl rfl]
      · obtain ⟨ha, hb, hc, hd, he2, hf, d', hd', he3⟩ := ih _ _ e he'
        have hne : addPt pos d ≠ e.1 := by
          intro heq
          rw [← heq, lookupGrade_cons_self] at hd
          split at hd <;> omega
        exact ⟨ha, hb, hc, by rwa [lookupGrade_cons_ne hne] at hd, he2, hf,
          ⟨d', List.mem_cons_of_mem _ hd', he3⟩⟩
    · rw [pn_cons_neg hcond] at he ⊢
      obtain ⟨ha, hb, hc, hd, he2, hf, d', hd', he3⟩ := ih _ _ e he
      exact ⟨ha, hb, hc, hd, he2, hf, ⟨d', List.mem_cons_of_mem _ hd', he3⟩⟩

/-- With at least one connection already counted, every further discovered
neighbor gets grade `cg + 1`. -/
theorem pn_grades_pos (sh : Shape) (mask : Pt → Bool) (pos : Pt) (cg : ℕ) :
    ∀ (ds : List Pt) (g : Grades) (c : ℕ), 1 ≤ c →
      (processNeighbors sh mask pos cg ds g c).pairsAdd.map Prod.fst =
        List.replicate (processNeighbors sh mask pos cg ds g c).pairsAdd.length
          (cg + 1) := by
  intro ds
  induction ds with
  | nil => intro g c _; rfl
  | cons d ds ih =>
    intro g c hc
    by_cases hcond : (inBoundsB sh (addPt pos d) && mask (addPt pos d) &&
        (lookupGrade g (addPt pos d) == 0)) = true
    · rw [pn_cons_pos hcond]
      have hng : (if c + 1 > 1 then cg + 1 else cg) = cg + 1 := by
        rw [if_pos (by omega)]
      show (if c + 1 > 1 then cg + 1 else cg) :: _ = _
      rw [hng, ih _ (c + 1) (by omega)]
      rfl
    · rw [pn_cons_neg hcond]
      exact ih g c hc

/-- **Split rule of one dequeue step**: among the `k` neighbors discovered by
one scan started with zero connections, the first inherits the current
grade and the remaining `k - 1` get the current grade plus one. -/
theorem pn_grades_zero (sh : Shape) (mask : Pt → Bool) (pos : Pt) (cg : ℕ) :
    ∀ (ds : List Pt) (g : Grades),
      (processNeighbors sh mask pos cg ds g 0).pairsAdd.map Prod.fst =
        gradePattern cg (processNeighbors sh mask pos cg ds g 0).pairsAdd.length := by
  intro ds
  induction ds with
  | nil => intro g; rfl
  | cons d ds ih =>
    intro g
    by_cases hcond : (inBoundsB sh (addPt pos d) && mask (addPt pos d) &&
        (lookupGrade g (addPt pos d) == 0)) = true
    · rw [pn_cons_pos hcond]
      have hng : (if 0 + 1 > 1 then cg + 1 else cg) = cg := by
        rw [if_neg (by omega)]
      show (if 0 + 1 > 1 then cg + 1 else cg) :: _ = _
      rw [hng, pn_grades_pos sh mask pos cg ds _ 1 (by omega)]
      rfl
    · rw [pn_cons_neg hcond]
      exact ih g

/-- The neighbor scan never touches an out-of-bounds voxel. -/
theorem pn_oob (sh : Shape) (mask : Pt → Bool) (pos : Pt) (cg : ℕ) :
    ∀ (ds : List Pt) (g : Grades) (c : ℕ) (p : Pt),
      inBoundsB sh p = false →
      lookupGrade (processNeighbors sh mask pos cg ds g c).grades p =
        lookupGrade g p := by
  intro ds
  induction ds with
  | nil => intro g c p _; rfl
  | cons d ds ih =>
    intro g c p hp
    by_cases hcond : (inBoundsB sh (addPt pos d) && mask (addPt pos d) &&
        (lookupGrade g (addPt pos d) == 0)) = true
    · rw [pn_cons_pos hcond]
      have hin : inBoundsB sh (addPt pos d) = true :=
        ((Bool.and_eq_true _ _).mp ((Bool.and_eq_true _ _).mp hcond).1).1
      have hne : addPt pos d ≠ p := fun he => by
        rw [he, hp] at hin; exact Bool.noConfusion hin
      show lookupGrade (processNeighbors sh mask pos cg ds
          ((addPt pos d, if c + 1 > 1 then cg + 1 else cg) :: g) (c + 1)).grades p =
        lookupGrade g p
      rw [ih _ _ p hp, lookupGrade_cons_ne hne]
    · rw [pn_cons_neg hcond]
      exact ih g c p hp

/-- The BFS loop never rewrites a labeled voxel. -/
theorem labelGo_stable (sh : Shape) (mask : Pt → Bool) :
    ∀ (fuel : ℕ) (q : List QEntry) (g : Grades) (p : Pt),
      lookupGrade g p ≠ 0 →
      lookupGrade (labelGo sh mask fuel q g).1 p = lookupGrade g p := by
  intro fuel
  induction fuel with
  | zero => intro q g p _; rfl
  | succ fuel ih =>
    intro q g p hp
    match q with
    | [] => rfl
    | (pos, cg, par) :: rest =>
      have hstep : (labelGo sh mask (fuel + 1) ((pos, cg, par) :: rest) g).1 =
          (labelGo sh mask fuel
            (rest ++ (processNeighbors sh mask pos cg directions g 0).queueAdd)
            (processNeighbors sh mask pos cg directions g 0).grades).1 := rfl
      rw [hstep,
        ih _ _ p (by rw [pn_stable sh mask pos cg directions g 0 p hp]; exact hp),
        pn_stable sh mask pos cg directions g 0 p hp]

/-- Every pair the BFS loop records carries the final grade of its point; that
grade is at least 1 and at least the final grade of its parent. The queue
invariant: each entry carries its voxel's grade, grades are positive, and each
entry's parent either has a smaller-or-equal grade or is the root's synthetic
out-of-bounds parent. -/
theorem labelGo_pairs_grades (sh : Shape) (mask : Pt → Bool) :
    ∀ (fuel : ℕ) (q : List QEntry) (g : Grades),
      (∀ e ∈ q, lookupGrade g e.1 = e.2.1 ∧ 1 ≤ e.2.1 ∧
        lookupGrade g e.2.2 ≤ e.2.1 ∧
        (lookupGrade g e.2.2 = 0 → inBoundsB sh e.2.2 = false)) →
      ∀ r ∈ (labelGo sh mask fuel q g).2,
        lookupGrade (labelGo sh mask fuel q g).1 r.2.1 = r.1 ∧ 1 ≤ r.1 ∧
        lookupGrade (labelGo sh mask fuel q g).1 r.2.2 ≤ r.1 := by
  intro fuel
  induction fuel with
  | zero => intro q g _ r hr; cases hr
  | succ fuel ih =>
    intro q g hinv r hr
    match q with
    | [] => cases hr
    | (pos, cg, par) :: rest =>
      have h1 : lookupGrade g pos = cg :=
        (hinv (pos, cg, par) (List.mem_cons_self _ _)).1
      have h2 : 1 ≤ cg := (hinv (pos, cg, par) (List.mem_cons_self _ _)).2.1
      set st := processNeighbors sh mask pos cg directions g 0 with hst
      have hstable : ∀ p, lookupGrade g p ≠ 0 →
          lookupGrade st.grades p = lookupGrade g p := fun p hp => by
        rw [hst]; exact pn_stable sh mask pos cg directions g 0 p hp
      have hqs : ∀ e ∈ st.queueAdd,
          lookupGrade st.grades e.1 = e.2.1 ∧
          (e.2.1 = cg ∨ e.2.1 = cg + 1) ∧ e.2.2 = pos ∧ lookupGrade g e.1 = 0 ∧
          inBoundsB sh e.1 = true ∧ mask e.1 = true ∧
          ∃ d' ∈ directions, e.1 = addPt pos d' := by
        rw [hst]; exact pn_queue_spec sh mask pos cg h2 directions g 0
      have hpos : lookupGrade st.grades pos = cg := by
        rw [hstable pos (by rw [h1]; omega)]; exact h1
      have hinv' : ∀ e ∈ rest ++ st.queueAdd, lookupGrade st.grades e.1 = e.2.1 ∧
          1 ≤ e.2.1 ∧ lookupGrade st.grades e.2.2 ≤ e.2.1 ∧
          (lookupGrade st.grades e.2.2 = 0 → inBoundsB sh e.2.2 = false) := by
        intro e he
        rcases List.mem_append.mp he with he | he
        · obtain ⟨k1, k2, k3, k4⟩ := hinv e (List.mem_cons_of_mem _ he)
          refine ⟨?_, k2, ?_, ?_⟩
          · rw [hstable e.1 (by rw [k1]; omega)]; exact k1
          · by_cases hz : lookupGrade g e.2.2 = 0
            · rw [hst, pn_oob sh mask pos cg directions g 0 e.2.2 (k4 hz), hz]
              omega
            · rw [hstable e.2.2 hz]; exact k3
          · intro hz'
            by_cases hz : lookupGrade g e.2.2 = 0
            · exact k4 hz
            · rw [hstable e.2.2 hz] at hz'; exact absurd hz' hz
        · obtain ⟨m1, m2, m3, _⟩ := hqs e he
          refine ⟨m1, ?_, ?_, ?_⟩
          · rcases m2 with h | h <;> omega
          · rw [m3, hpos]; rcases m2 with h | h <;> omega
          · intro hz; rw [m3, hpos] at hz; exact absurd hz (by omega)
      have hsplit : (labelGo sh mask (fuel + 1) ((pos, cg, par) :: rest) g).2 =
          st.pairsAdd ++ (labelGo sh mask fuel (rest ++ st.queueAdd) st.grades).2 := by
        rw [hst]; rfl
      have hg1 : (labelGo sh mask (fuel + 1) ((pos, cg, par) :: rest) g).1 =
          (labelGo sh mask fuel (rest ++ st.queueAdd) st.grades).1 := by
        rw [hst]; rfl
      rw [hsplit] at hr
      rw [hg1]
      rcases List.mem_append.mp hr with hr | hr
      · have hpq : st.pairsAdd = st.queueAdd.map (fun e => (e.2.1, e.1, e.2.2)) := by
          rw [hst]; exact pn_pairs_eq_queue sh mask pos cg directions g 0
        rw [hpq] at hr
        obtain ⟨e, he, heq⟩ := List.mem_map.mp hr
        obtain ⟨m1, m2, m3, _⟩ := hqs e he
        obtain ⟨k1, k2, k3, _⟩ := hinv' e (List.mem_append_right _ he)
        subst heq
        refine ⟨?_, k2, ?_⟩
        · show lookupGrade (labelGo sh mask fuel (rest ++ st.queueAdd) st.grades).1
            e.1 = e.2.1
          rw [labelGo_stable sh mask fuel _ _ e.1 (by rw [k1]; omega)]
          exact k1
        · show lookupGrade (labelGo sh mask fuel (rest ++ st.queueAdd) st.grades).1
            e.2.2 ≤ e.2.1
          rw [m3, labelGo_stable sh mask fuel _ _ pos (by rw [hpos]; omega), hpos]
          rcases m2 with h | h <;> omega
      · exact ih (rest ++ st.queueAdd) st.grades hinv' r hr

/-- **C5**: every recorded `(point, parent)` pair (the root's synthetic pair is
never recorded) has the generation of the point equal to the grade the labeler
assigned it and at least the generation of its parent; and within each dequeue
step the `k` discovered neighbors receive grades `cg, cg+1, ..., cg+1` in the
fixed 26-direction enumeration order (the first inherits the current grade, the
remaining `k - 1` get the current grade plus one). -/
theorem c5_generation_monotone_and_split_rule (sh : Shape) (mask : Pt → Bool)
    (start : Pt) :
    (∀ r ∈ (labelPairs sh mask start).2,
      lookupGrade (labelPairs sh mask start).1 r.2.1 = r.1 ∧
      lookupGrade (labelPairs sh mask start).1 r.2.2 ≤ r.1) ∧
    ∀ (pos : Pt) (cg : ℕ) (g : Grades),
      (processNeighbors sh mask pos cg directions g 0).pairsAdd.map Prod.fst =
        gradePattern cg (processNeighbors sh mask pos cg directions g 0).pairsAdd.length := by
  constructor
  · intro r hr
    have hinv : ∀ e ∈ [((start : Pt), 1, ((-1 : ℤ), (-1 : ℤ), (-1 : ℤ)))],
        lookupGrade [(start, 1)] e.1 = e.2.1 ∧ 1 ≤ e.2.1 ∧
        lookupGrade [(start, 1)] e.2.2 ≤ e.2.1 ∧
        (lookupGrade [(start, 1)] e.2.2 = 0 → inBoundsB sh e.2.2 = false) := by
      intro e he
      rw [List.mem_singleton] at he
      subst he
      refine ⟨lookupGrade_cons_self, le_refl 1, ?_, fun _ => ?_⟩
      · show lookupGrade [(start, 1)] (-1, -1, -1) ≤ 1
        rw [lookupGrade]
        split
        · exact le_refl 1
        · exact Nat.zero_le 1
      · show inBoundsB sh (-1, -1, -1) = false
        rfl
    have h := labelGo_pairs_grades sh mask (cellCount sh + 1)
      [(start, 1, (-1, -1, -1))] [(start, 1)] hinv r hr
    exact ⟨h.1, h.2.2⟩
  · intro pos cg g
    exact pn_grades_zero sh mask pos cg directions g

/-- **C5** (witness): in the 3-voxel demo the single recorded pair
`(1, ((2,0,0), (1,0,0)))` gets point grade 1 ≥ parent grade. -/
theorem c5_witness :
    ((1, ((2, 0, 0), (1, 0, 0))) : PairRec) ∈ (labelPairs (3, 1, 1) c3Mask (1, 0, 0)).2 ∧
    lookupGrade (labelPairs (3, 1, 1) c3Mask (1, 0, 0)).1 (2, 0, 0) = 1 ∧
    lookupGrade (labelPairs (3, 1, 1) c3Mask (1, 0, 0)).1 (1, 0, 0) ≤ 1 :=
  ⟨by decide, (c5_generation_monotone_and_split_rule (3, 1, 1) c3Mask (1, 0, 0)).1
      (1, ((2, 0, 0), (1, 0, 0))) (by decide)⟩

/-- A voxel is labeled after a neighbor scan iff it was labeled before or it
is one of the scan's newly enqueued points. -/
theorem pn_labels_iff (sh : Shape) (mask : Pt → Bool) (pos : Pt) (cg : ℕ)
    (hcg : 1 ≤ cg) :
    ∀ (ds : List Pt) (g : Grades) (c : ℕ) (p : Pt),
      (lookupGrade (processNeighbors sh mask pos cg ds g c).grades p ≠ 0 ↔
        lookupGrade g p ≠ 0 ∨
          p ∈ (processNeighbors sh mask pos cg ds g c).queueAdd.map
            (fun e => e.1)) := by
  intro ds
  induction ds with
  | nil =>
    intro g c p
    exact ⟨fun h => Or.inl h, fun h => h.resolve_right (List.not_mem_nil p)⟩
  | cons d ds ih =>
    intro g c p
    by_cases hcond : (inBoundsB sh (addPt pos d) && mask (addPt pos d) &&
        (lookupGrade g (addPt pos d) == 0)) = true
    · rw [pn_cons_pos hcond]
      show lookupGrade (processNeighbors sh mask pos cg ds
          ((addPt pos d, if c + 1 > 1 then cg + 1 else cg) :: g) (c + 1)).grades p ≠ 0 ↔
        lookupGrade g p ≠ 0 ∨
          p ∈ ((addPt pos d, (if c + 1 > 1 then cg + 1 else cg), pos) ::
            (processNeighbors sh mask pos cg ds
              ((addPt pos d, if c + 1 > 1 then cg + 1 else cg) :: g)
              (c + 1)).queueAdd).map (fun e => e.1)
      rw [ih _ _ p, List.map_cons]
      have hng : (if c + 1 > 1 then cg + 1 else cg) ≠ 0 := by split <;> omega
      by_cases hnp : addPt pos d = p
      · have hl : lookupGrade ((addPt pos d,
            if c + 1 > 1 then cg + 1 else cg) :: g) p ≠ 0 := by
          rw [← hnp, lookupGrade_cons_self]; exact hng
        constructor
        · intro _; exact Or.inr (List.mem_cons.mpr (Or.inl hnp.symm))
        · intro _; exact Or.inl hl
      · rw [lookupGrade_cons_ne hnp]
        constructor
        · rintro (h | h)
          · exact Or.inl h
          · exact Or.inr (List.mem_cons_of_mem _ h)
        · rintro (h | h)
          · exact Or.inl h
          · rcases List.mem_cons.mp h with he | hm
            · exact absurd he.symm hnp
            · exact Or.inr hm
    · rw [pn_cons_neg hcond]
      exact ih g c p

/-- After scanning all of `ds`, every in-bounds masked voxel reachable through
one of the scanned offsets is labeled. -/
theorem pn_closure (sh : Shape) (mask : Pt → Bool) (pos : Pt) (cg : ℕ)
    (hcg : 1 ≤ cg) :
    ∀ (ds : List Pt) (g : Grades) (c : ℕ) (r : Pt),
      (∃ d ∈ ds, r = addPt pos d) → inBoundsB sh r = true → mask r = true →
      lookupGrade (processNeighbors sh mask pos cg ds g c).grades r ≠ 0 := by
  intro ds
  induction ds with
  | nil =>
    rintro g c r ⟨d, hd, _⟩ _ _
    cases hd
  | cons d ds ih =>
    rintro g c r ⟨d', hd', hr⟩ hin hmk
    by_cases hcond : (inBoundsB sh (addPt pos d) && mask (addPt pos d) &&
        (lookupGrade g (addPt pos d) == 0)) = true
    · rw [pn_cons_pos hcond]
      show lookupGrade (processNeighbors sh mask pos cg ds
          ((addPt pos d, if c + 1 > 1 then cg + 1 else cg) :: g) (c + 1)).grades r ≠ 0
      rcases List.mem_cons.mp hd' with rfl | hd'
      · subst hr
        rw [pn_stable sh mask pos cg ds _ _ _
          (by rw [lookupGrade_cons_self]; split <;> omega)]
        rw [lookupGrade_cons_self]
        split <;> omega
      · exact ih _ _ r ⟨d', hd', hr⟩ hin hmk
    · rw [pn_cons_neg hcond]
      rcases List.mem_cons.mp hd' with rfl | hd'
      · subst hr
        have hg : lookupGrade g (addPt pos d') ≠ 0 := by
          intro hz
          exact hcond (by rw [hin, hmk, hz]; rfl)
        rw [pn_stable sh mask pos cg ds g c _ hg]
        exact hg
      · exact ih g c r ⟨d', hd', hr⟩ hin hmk

/-- An in-bounds voxel belongs to the finite grid. -/
theorem mem_gridCells (sh : Shape) (p : Pt) (h : inBoundsB sh p = true) :
    p ∈ gridCells sh := by
  obtain ⟨x, y, z⟩ := p
  rw [inBoundsB] at h
  simp only [Bool.and_eq_true, decide_eq_true_eq] at h
  obtain ⟨⟨⟨hx0, hx1⟩, hy0, hy1⟩, hz0, hz1⟩ := h
  rw [gridCells, Finset.mem_image]
  refine ⟨(x.toNat, y.toNat, z.toNat), ?_, ?_⟩
  · simp only [Finset.mem_product, Finset.mem_range]
    omega
  · show ((x.toNat : ℤ), (y.toNat : ℤ), (z.toNat : ℤ)) = (x, y, z)
    rw [Int.toNat_of_nonneg hx0, Int.toNat_of_nonneg hy0, Int.toNat_of_nonneg hz0]

/-- Writing a nonzero grade onto an unlabeled in-bounds voxel decreases the
number of unlabeled grid voxels by exactly one. -/
theorem unlabeledCard_write (sh : Shape) (n : Pt) (v : ℕ) (g : Grades)
    (hv : v ≠ 0) (h0 : lookupGrade g n = 0) (hin : inBoundsB sh n = true) :
    unlabeledCard sh ((n, v) :: g) + 1 = unlabeledCard sh g := by
  have hmem : n ∈ (gridCells sh).filter (fun p => lookupGrade g p = 0) :=
    Finset.mem_filter.mpr ⟨mem_gridCells sh n hin, h0⟩
  have hset : (gridCells sh).filter (fun p => lookupGrade ((n, v) :: g) p = 0) =
      ((gridCells sh).filter (fun p => lookupGrade g p = 0)).erase n := by
    ext p
    rw [Finset.mem_erase, Finset.mem_filter, Finset.mem_filter]
    constructor
    · intro hp
      obtain ⟨hp1, hp2⟩ := hp
      by_cases hnp : n = p
      · rw [← hnp, lookupGrade_cons_self] at hp2
        exact absurd hp2 hv
      · rw [lookupGrade_cons_ne hnp] at hp2
        exact ⟨fun he => hnp he.symm, hp1, hp2⟩
    · intro hp
      obtain ⟨hne, hp1, hp2⟩ := hp
      rw [lookupGrade_cons_ne (fun he => hne he.symm)]
      exact ⟨hp1, hp2⟩
  have hpos : 0 < ((gridCells sh).filter (fun p => lookupGrade g p = 0)).card :=
    Finset.card_pos.mpr ⟨n, hmem⟩
  rw [unlabeledCard, unlabeledCard, hset, Finset.card_erase_of_mem hmem]
  omega

/-- One neighbor scan converts unlabeled grid voxels into queue entries one
for one. -/
theorem pn_card (sh : Shape) (mask : Pt → Bool) (pos : Pt) (cg : ℕ)
    (hcg : 1 ≤ cg) :
    ∀ (ds : List Pt) (g : Grades) (c : ℕ),
      unlabeledCard sh (processNeighbors sh mask pos cg ds g c).grades +
        (processNeighbors sh mask pos cg ds g c).queueAdd.length =
        unlabeledCard sh g := by
  intro ds
  induction ds with
  | nil => intro g c; rfl
  | cons d ds ih =>
    intro g c
    by_cases hcond : (inBoundsB sh (addPt pos d) && mask (addPt pos d) &&
        (lookupGrade g (addPt pos d) == 0)) = true
    · rw [pn_cons_pos hcond]
      have hb1 := (Bool.and_eq_true _ _).mp hcond
      have hb2 := (Bool.and_eq_true _ _).mp hb1.1
      have h0 : lookupGrade g (addPt pos d) = 0 := beq_iff_eq.mp hb1.2
      have hng : (if c + 1 > 1 then cg + 1 else cg) ≠ 0 := by split <;> omega
      have hw := unlabeledCard_write sh (addPt pos d)
        (if c + 1 > 1 then cg + 1 else cg) g hng h0 hb2.1
      show unlabeledCard sh (processNeighbors sh mask pos cg ds
          ((addPt pos d, if c + 1 > 1 then cg + 1 else cg) :: g) (c + 1)).grades +
        ((addPt pos d, (if c + 1 > 1 then cg + 1 else cg), pos) ::
          (processNeighbors sh mask pos cg ds
            ((addPt pos d, if c + 1 > 1 then cg + 1 else cg) :: g)
            (c + 1)).queueAdd).length = unlabeledCard sh g
      rw [List.length_cons]
      have hi := ih ((addPt pos d, if c + 1 > 1 then cg + 1 else cg) :: g) (c + 1)
      omega
    · rw [pn_cons_neg hcond]
      exact ih g c

/-- The points a single neighbor scan enqueues are pairwise distinct. -/
theorem pn_queue_nodup (sh : Shape) (mask : Pt → Bool) (pos : Pt) (cg : ℕ)
    (hcg : 1 ≤ cg) :
    ∀ (ds : List Pt) (g : Grades) (c : ℕ),
      ((processNeighbors sh mask pos cg ds g c).queueAdd.map
        (fun e => e.1)).Nodup := by
  intro ds
  induction ds with
  | nil => intro g c; exact List.nodup_nil
  | cons d ds ih =>
    intro g c
    by_cases hcond : (inBoundsB sh (addPt pos d) && mask (addPt pos d) &&
        (lookupGrade g (addPt pos d) == 0)) = true
    · rw [pn_cons_pos hcond]
      show (((addPt pos d, (if c + 1 > 1 then cg + 1 else cg), pos) ::
          (processNeighbors sh mask pos cg ds
            ((addPt pos d, if c + 1 > 1 then cg + 1 else cg) :: g)
            (c + 1)).queueAdd).map (fun e => e.1)).Nodup
      rw [List.map_cons]
      refine List.nodup_cons.mpr ⟨?_, ih _ _⟩
      intro hmem
      obtain ⟨e, he, heq⟩ := List.mem_map.mp hmem
      have hu := (pn_queue_spec sh mask pos cg hcg ds _ (c + 1) e he).2.2.2.1
      have h' : e.1 = addPt pos d := heq
      rw [h', lookupGrade_cons_self] at hu
      split at hu <;> omega
    · rw [pn_cons_neg hcond]
      exact ih g c

/-- A voxel is labeled after the BFS loop iff it was labeled before or is the
point of some recorded pair. -/
theorem labelGo_labels_iff (sh : Shape) (mask : Pt → Bool) :
    ∀ (fuel : ℕ) (q : List QEntry) (g : Grades),
      (∀ e ∈ q, lookupGrade g e.1 = e.2.1 ∧ 1 ≤ e.2.1) →
      ∀ p, (lookupGrade (labelGo sh mask fuel q g).1 p ≠ 0 ↔
        lookupGrade g p ≠ 0 ∨
          p ∈ (labelGo sh mask fuel q g).2.map (fun r => r.2.1)) := by
  intro fuel
  induction fuel with
  | zero =>
    intro q g _ p
    exact ⟨fun h => Or.inl h, fun h => h.resolve_right (List.not_mem_nil p)⟩
  | succ fuel ih =>
    intro q g hinv p
    match q with
    | [] => exact ⟨fun h => Or.inl h, fun h => h.resolve_right (List.not_mem_nil p)⟩
    | (pos, cg, par) :: rest =>
      have h1 : lookupGrade g pos = cg :=
        (hinv (pos, cg, par) (List.mem_cons_self _ _)).1
      have h2 : 1 ≤ cg := (hinv (pos, cg, par) (List.mem_cons_self _ _)).2
      set st := processNeighbors sh mask pos cg directions g 0 with hst
      have hstable : ∀ x, lookupGrade g x ≠ 0 →
          lookupGrade st.grades x = lookupGrade g x := fun x hx => by
        rw [hst]; exact pn_stable sh mask pos cg directions g 0 x hx
      have hinv' : ∀ e ∈ rest ++ st.queueAdd,
          lookupGrade st.grades e.1 = e.2.1 ∧ 1 ≤ e.2.1 := by
        intro e he
        rcases List.mem_append.mp he with he | he
        · obtain ⟨k1, k2⟩ := hinv e (List.mem_cons_of_mem _ he)
          exact ⟨by rw [hstable e.1 (by rw [k1]; omega)]; exact k1, k2⟩
        · have hq := pn_queue_spec sh mask pos cg h2 directions g 0 e
            (by rw [hst] at he; exact he)
          refine ⟨by rw [hst]; exact hq.1, ?_⟩
          rcases hq.2.1 with h | h <;> omega
      have hiff : ∀ x, (lookupGrade st.grades x ≠ 0 ↔ lookupGrade g x ≠ 0 ∨
          x ∈ st.queueAdd.map (fun e => e.1)) := fun x => by
        rw [hst]; exact pn_labels_iff sh mask pos cg h2 directions g 0 x
      have hpts : st.pairsAdd.map (fun r => r.2.1) =
          st.queueAdd.map (fun e => e.1) := by
        rw [hst, pn_pairs_eq_queue sh mask pos cg directions g 0, List.map_map]
        rfl
      have hg1 : (labelGo sh mask (fuel + 1) ((pos, cg, par) :: rest) g).1 =
          (labelGo sh mask fuel (rest ++ st.queueAdd) st.grades).1 := by
        rw [hst]; rfl
      have hsplit : (labelGo sh mask (fuel + 1) ((pos, cg, par) :: rest) g).2 =
          st.pairsAdd ++ (labelGo sh mask fuel (rest ++ st.queueAdd) st.grades).2 := by
        rw [hst]; rfl
      rw [hg1, hsplit, List.map_append, hpts,
        ih (rest ++ st.queueAdd) st.grades hinv' p, hiff p, List.mem_append,
        or_assoc]

/-- The recorded points are pairwise distinct and were all unlabeled at loop
entry. -/
theorem labelGo_nodup (sh : Shape) (mask : Pt → Bool) :
    ∀ (fuel : ℕ) (q : List QEntry) (g : Grades),
      (∀ e ∈ q, lookupGrade g e.1 = e.2.1 ∧ 1 ≤ e.2.1) →
      ((labelGo sh mask fuel q g).2.map (fun r => r.2.1)).Nodup ∧
      ∀ p ∈ (labelGo sh mask fuel q g).2.map (fun r => r.2.1),
        lookupGrade g p = 0 := by
  intro fuel
  induction fuel with
  | zero =>
    intro q g _
    exact ⟨List.nodup_nil, fun p hp => absurd hp (List.not_mem_nil p)⟩
  | succ fuel ih =>
    intro q g hinv
    match q with
    | [] => exact ⟨List.nodup_nil, fun p hp => absurd hp (List.not_mem_nil p)⟩
    | (pos, cg, par) :: rest =>
      have h1 : lookupGrade g pos = cg :=
        (hinv (pos, cg, par) (List.mem_cons_self _ _)).1
      have h2 : 1 ≤ cg := (hinv (pos, cg, par) (List.mem_cons_self _ _)).2
      set st := processNeighbors sh mask pos cg directions g 0 with hst
      have hstable : ∀ x, lookupGrade g x ≠ 0 →
          lookupGrade st.grades x = lookupGrade g x := fun x hx => by
        rw [hst]; exact pn_stable sh mask pos cg directions g 0 x hx
      have hinv' : ∀ e ∈ rest ++ st.queueAdd,
          lookupGrade st.grades e.1 = e.2.1 ∧ 1 ≤ e.2.1 := by
        intro e he
        rcases List.mem_append.mp he with he | he
        · obtain ⟨k1, k2⟩ := hinv e (List.mem_cons_of_mem _ he)
          exact ⟨by rw [hstable e.1 (by rw [k1]; omega)]; exact k1, k2⟩
        · have hq := pn_queue_spec sh mask pos cg h2 directions g 0 e
            (by rw [hst] at he; exact he)
          refine ⟨by rw [hst]; exact hq.1, ?_⟩
          rcases hq.2.1 with h | h <;> omega
      have hpts : st.pairsAdd.map (fun r => r.2.1) =
          st.queueAdd.map (fun e => e.1) := by
        rw [hst, pn_pairs_eq_queue sh mask pos cg directions g 0, List.map_map]
        rfl
      have hsplit : (labelGo sh mask (fuel + 1) ((pos, cg, par) :: rest) g).2 =
          st.pairsAdd ++ (labelGo sh mask fuel (rest ++ st.queueAdd) st.grades).2 := by
        rw [hst]; rfl
      have hnd1 : (st.queueAdd.map (fun e => e.1)).Nodup := by
        rw [hst]; exact pn_queue_nodup sh mask pos cg h2 directions g 0
      have hqs0 : ∀ p ∈ st.queueAdd.map (fun e => e.1), lookupGrade g p = 0 := by
        intro p hp
        obtain ⟨e, he, heq⟩ := List.mem_map.mp hp
        have hq := pn_queue_spec sh mask pos cg h2 directions g 0 e
          (by rw [hst] at he; exact he)
        have h' : e.1 = p := heq
        rw [← h']
        exact hq.2.2.2.1
      have hqsNZ : ∀ p ∈ st.queueAdd.map (fun e => e.1),
          lookupGrade st.grades p ≠ 0 := by
        intro p hp
        obtain ⟨e, he, heq⟩ := List.mem_map.mp hp
        have hq := pn_queue_spec sh mask pos cg h2 directions g 0 e
          (by rw [hst] at he; exact he)
        have h' : e.1 = p := heq
        rw [hst, ← h', hq.1]
        rcases hq.2.1 with h | h <;> omega
      obtain ⟨ihnd, ih0⟩ := ih (rest ++ st.queueAdd) st.grades hinv'
      constructor
      · rw [hsplit, List.map_append, hpts, List.nodup_append]
        refine ⟨hnd1, ihnd, ?_⟩
        intro p hp hq2
        exact hqsNZ p hp (ih0 p hq2)
      · intro p hp
        rw [hsplit, List.map_append, hpts] at hp
        rcases List.mem_append.mp hp with hp | hp
        · exact hqs0 p hp
        · have hz0 := ih0 p hp
          by_cases hz : lookupGrade g p = 0
          · exact hz
          · rw [hstable p hz] at hz0
            exact absurd hz0 hz

/-- Everything the BFS loop labels is reachable from the start voxel. -/
theorem labelGo_reach (sh : Shape) (mask : Pt → Bool) (start : Pt) :
    ∀ (fuel : ℕ) (q : List QEntry) (g : Grades),
      (∀ e ∈ q, lookupGrade g e.1 = e.2.1 ∧ 1 ≤ e.2.1 ∧
        Reach sh mask start e.1) →
      (∀ p, lookupGrade g p ≠ 0 → Reach sh mask start p) →
      ∀ p, lookupGrade (labelGo sh mask fuel q g).1 p ≠ 0 →
        Reach sh mask start p := by
  intro fuel
  induction fuel with
  | zero => intro q g _ hlab p hp; exact hlab p hp
  | succ fuel ih =>
    intro q g hinv hlab p hp
    match q with
    | [] => exact hlab p hp
    | (pos, cg, par) :: rest =>
      have h1 : lookupGrade g pos = cg :=
        (hinv (pos, cg, par) (List.mem_cons_self _ _)).1
      have h2 : 1 ≤ cg := (hinv (pos, cg, par) (List.mem_cons_self _ _)).2.1
      have hR : Reach sh mask start pos :=
        (hinv (pos, cg, par) (List.mem_cons_self _ _)).2.2
      set st := processNeighbors sh mask pos cg directions g 0 with hst
      have hstable : ∀ x, lookupGrade g x ≠ 0 →
          lookupGrade st.grades x = lookupGrade g x := fun x hx => by
        rw [hst]; exact pn_stable sh mask pos cg directions g 0 x hx
      have hqstep : ∀ e ∈ st.queueAdd, Step sh mask pos e.1 := by
        intro e he
        have hq := pn_queue_spec sh mask pos cg h2 directions g 0 e
          (by rw [hst] at he; exact he)
        exact ⟨hq.2.2.2.2.2.2, hq.2.2.2.2.1, hq.2.2.2.2.2.1⟩
      have hiff : ∀ x, (lookupGrade st.grades x ≠ 0 ↔ lookupGrade g x ≠ 0 ∨
          x ∈ st.queueAdd.map (fun e => e.1)) := fun x => by
        rw [hst]; exact pn_labels_iff sh mask pos cg h2 directions g 0 x
      have hlab' : ∀ x, lookupGrade st.grades x ≠ 0 → Reach sh mask start x := by
        intro x hx
        rcases (hiff x).mp hx with hx | hx
        · exact hlab x hx
        · obtain ⟨e, he, heq⟩ := List.mem_map.mp hx
          have h' : e.1 = x := heq
          exact h' ▸ Relation.ReflTransGen.tail hR (hqstep e he)
      have hinv' : ∀ e ∈ rest ++ st.queueAdd,
          lookupGrade st.grades e.1 = e.2.1 ∧ 1 ≤ e.2.1 ∧
          Reach sh mask start e.1 := by
        intro e he
        rcases List.mem_append.mp he with he | he
        · obtain ⟨k1, k2, k3⟩ := hinv e (List.mem_cons_of_mem _ he)
          exact ⟨by rw [hstable e.1 (by rw [k1]; omega)]; exact k1, k2, k3⟩
        · have hq := pn_queue_spec sh mask pos cg h2 directions g 0 e
            (by rw [hst] at he; exact he)
          refine ⟨by rw [hst]; exact hq.1, ?_, ?_⟩
          · rcases hq.2.1 with h | h <;> omega
          · exact Relation.ReflTransGen.tail hR (hqstep e he)
      have hg1 : (labelGo sh mask (fuel + 1) ((pos, cg, par) :: rest) g).1 =
          (labelGo sh mask fuel (rest ++ st.queueAdd) st.grades).1 := by
        rw [hst]; rfl
      rw [hg1] at hp
      exact ih (rest ++ st.queueAdd) st.grades hinv' hlab' p hp

/-- With enough fuel the BFS loop drains its queue: the final labeled set is
closed under one traversal step. -/
theorem labelGo_closure (sh : Shape) (mask : Pt → Bool) :
    ∀ (fuel : ℕ) (q : List QEntry) (g : Grades),
      (∀ e ∈ q, lookupGrade g e.1 = e.2.1 ∧ 1 ≤ e.2.1) →
      (∀ p, lookupGrade g p ≠ 0 →
        p ∈ q.map (fun e => e.1) ∨
          ∀ r, Step sh mask p r → lookupGrade g r ≠ 0) →
      q.length + unlabeledCard sh g ≤ fuel →
      ∀ p r, lookupGrade (labelGo sh mask fuel q g).1 p ≠ 0 →
        Step sh mask p r → lookupGrade (labelGo sh mask fuel q g).1 r ≠ 0 := by
  intro fuel
  induction fuel with
  | zero =>
    intro q g hinv hexp hfuel p r hp hs
    have hq0 : q = [] := List.length_eq_zero.mp (by omega)
    subst hq0
    rcases hexp p hp with hmem | hcl
    · exact absurd hmem (List.not_mem_nil p)
    · exact hcl r hs
  | succ fuel ih =>
    intro q g hinv hexp hfuel p r hp hs
    match q with
    | [] =>
      rcases hexp p hp with hmem | hcl
      · exact absurd hmem (List.not_mem_nil p)
      · exact hcl r hs
    | (pos, cg, par) :: rest =>
      have h1 : lookupGrade g pos = cg :=
        (hinv (pos, cg, par) (List.mem_cons_self _ _)).1
      have h2 : 1 ≤ cg := (hinv (pos, cg, par) (List.mem_cons_self _ _)).2
      set st := processNeighbors sh mask pos cg directions g 0 with hst
      have hstable : ∀ x, lookupGrade g x ≠ 0 →
          lookupGrade st.grades x = lookupGrade g x := fun x hx => by
        rw [hst]; exact pn_stable sh mask pos cg directions g 0 x hx
      have hinv' : ∀ e ∈ rest ++ st.queueAdd,
          lookupGrade st.grades e.1 = e.2.1 ∧ 1 ≤ e.2.1 := by
        intro e he
        rcases List.mem_append.mp he with he | he
        · obtain ⟨k1, k2⟩ := hinv e (List.mem_cons_of_mem _ he)
          exact ⟨by rw [hstable e.1 (by rw [k1]; omega)]; exact k1, k2⟩
        · have hq := pn_queue_spec sh mask pos cg h2 directions g 0 e
            (by rw [hst] at he; exact he)
          refine ⟨by rw [hst]; exact hq.1, ?_⟩
          rcases hq.2.1 with h | h <;> omega
      have hiff : ∀ x, (lookupGrade st.grades x ≠ 0 ↔ lookupGrade g x ≠ 0 ∨
          x ∈ st.queueAdd.map (fun e => e.1)) := fun x => by
        rw [hst]; exact pn_labels_iff sh mask pos cg h2 directions g 0 x
      have hclosure_pos : ∀ r', Step sh mask pos r' →
          lookupGrade st.grades r' ≠ 0 := by
        intro r' hsr
        rw [Step] at hsr
        rw [hst]
        exact pn_closure sh mask pos cg h2 directions g 0 r' hsr.1 hsr.2.1 hsr.2.2
      have hexp' : ∀ x, lookupGrade st.grades x ≠ 0 →
          x ∈ (rest ++ st.queueAdd).map (fun e => e.1) ∨
            ∀ r', Step sh mask x r' → lookupGrade st.grades r' ≠ 0 := by
        intro x hx
        rcases (hiff x).mp hx with hx | hx
        · rcases hexp x hx with hmem | hcl
          · rw [List.map_cons] at hmem
            rcases List.mem_cons.mp hmem with he | hm
            · have hxpos : x = pos := he
              subst hxpos
              exact Or.inr hclosure_pos
            · refine Or.inl ?_
              rw [List.map_append]
              exact List.mem_append_left _ hm
          · exact Or.inr (fun r' hsr => by
              rw [hstable r' (hcl r' hsr)]; exact hcl r' hsr)
        · refine Or.inl ?_
          rw [List.map_append]
          exact List.mem_append_right _ hx
      have hfuel' : (rest ++ st.queueAdd).length + unlabeledCard sh st.grades ≤
          fuel := by
        have hc : unlabeledCard sh st.grades + st.queueAdd.length =
            unlabeledCard sh g := by
          rw [hst]; exact pn_card sh mask pos cg h2 directions g 0
        have hlen : ((pos, cg, par) :: rest).length = rest.length + 1 := rfl
        rw [List.length_append]
        rw [hlen] at hfuel
        omega
      have hg1 : (labelGo sh mask (fuel + 1) ((pos, cg, par) :: rest) g).1 =
          (labelGo sh mask fuel (rest ++ st.queueAdd) st.grades).1 := by
        rw [hst]; rfl
      rw [hg1] at hp ⊢
      exact ih (rest ++ st.queueAdd) st.grades hinv' hexp' hfuel' p r hp hs

/-- The grid has at most `cellCount` voxels. -/
theorem gridCells_card_le (sh : Shape) : (gridCells sh).card ≤ cellCount sh := by
  rw [gridCells, cellCount]
  refine le_trans Finset.card_image_le ?_
  rw [Finset.card_product, Finset.card_product, Finset.card_range,
    Finset.card_range, Finset.card_range]
  exact Nat.le_of_eq (Nat.mul_assoc _ _ _).symm

/-- The BFS phase: the recorded points together with the start voxel are
exactly the voxels reachable from the start, each recorded point is recorded
once, and the start voxel is never recorded. -/
theorem labelPairs_partition (sh : Shape) (mask : Pt → Bool) (start : Pt) :
    (∀ p, (p = start ∨
        p ∈ (labelPairs sh mask start).2.map (fun r => r.2.1)) ↔
      Reach sh mask start p) ∧
    ((labelPairs sh mask start).2.map (fun r => r.2.1)).Nodup ∧
    start ∉ (labelPairs sh mask start).2.map (fun r => r.2.1) := by
  have hlab0 : ∀ p, lookupGrade [(start, 1)] p ≠ 0 → p = start := by
    intro p hp
    by_cases h : start = p
    · exact h.symm
    · rw [lookupGrade, if_neg h] at hp
      exact absurd rfl hp
  have hInvG : ∀ e ∈ [((start : Pt), 1, ((-1 : ℤ), (-1 : ℤ), (-1 : ℤ)))],
      lookupGrade [(start, 1)] e.1 = e.2.1 ∧ 1 ≤ e.2.1 := by
    intro e he
    rw [List.mem_singleton] at he
    subst he
    exact ⟨lookupGrade_cons_self, le_refl 1⟩
  have hInvR : ∀ e ∈ [((start : Pt), 1, ((-1 : ℤ), (-1 : ℤ), (-1 : ℤ)))],
      lookupGrade [(start, 1)] e.1 = e.2.1 ∧ 1 ≤ e.2.1 ∧
      Reach sh mask start e.1 := by
    intro e he
    rw [List.mem_singleton] at he
    subst he
    exact ⟨lookupGrade_cons_self, le_refl 1, Relation.ReflTransGen.refl⟩
  have hlabR : ∀ p, lookupGrade [(start, 1)] p ≠ 0 → Reach sh mask start p := by
    intro p hp
    rw [hlab0 p hp]
    exact Relation.ReflTransGen.refl
  have hexp0 : ∀ p, lookupGrade [(start, 1)] p ≠ 0 →
      p ∈ [((start : Pt), 1, ((-1 : ℤ), (-1 : ℤ), (-1 : ℤ)))].map (fun e => e.1) ∨
        ∀ r, Step sh mask p r → lookupGrade [(start, 1)] r ≠ 0 := by
    intro p hp
    refine Or.inl ?_
    rw [hlab0 p hp]
    exact List.mem_singleton.mpr rfl
  have hfuel : ([((start : Pt), 1, ((-1 : ℤ), (-1 : ℤ), (-1 : ℤ)))]).length +
      unlabeledCard sh [(start, 1)] ≤ cellCount sh + 1 := by
    have hU : unlabeledCard sh [(start, 1)] ≤ cellCount sh :=
      le_trans (Finset.card_filter_le _ _) (gridCells_card_le sh)
    rw [List.length_singleton]
    omega
  have hstart : lookupGrade (labelGo sh mask (cellCount sh + 1)
      [(start, 1, (-1, -1, -1))] [(start, 1)]).1 start ≠ 0 := by
    rw [labelGo_stable sh mask _ _ _ start (by rw [lookupGrade_cons_self]; omega),
      lookupGrade_cons_self]
    omega
  have hiff := labelGo_labels_iff sh mask (cellCount sh + 1)
    [(start, 1, (-1, -1, -1))] [(start, 1)] hInvG
  refine ⟨?_, ?_, ?_⟩
  · intro p
    constructor
    · rintro (rfl | hp)
      · exact Relation.ReflTransGen.refl
      · exact labelGo_reach sh mask start (cellCount sh + 1)
          [(start, 1, (-1, -1, -1))] [(start, 1)] hInvR hlabR p
          ((hiff p).mpr (Or.inr hp))
    · intro hre
      rw [Reach] at hre
      have hlabP : lookupGrade (labelGo sh mask (cellCount sh + 1)
          [(start, 1, (-1, -1, -1))] [(start, 1)]).1 p ≠ 0 := by
        induction hre with
        | refl => exact hstart
        | tail h1 h2 ih =>
          exact labelGo_closure sh mask (cellCount sh + 1)
            [(start, 1, (-1, -1, -1))] [(start, 1)] hInvG hexp0 hfuel _ _ ih h2
      rcases (hiff p).mp hlabP with hp | hp
      · exact Or.inl (hlab0 p hp)
      · exact Or.inr hp
  · exact (labelGo_nodup sh mask (cellCount sh + 1)
      [(start, 1, (-1, -1, -1))] [(start, 1)] hInvG).1
  · intro hmem
    have h0 := (labelGo_nodup sh mask (cellCount sh + 1)
      [(start, 1, (-1, -1, -1))] [(start, 1)] hInvG).2 start hmem
    rw [lookupGrade_cons_self] at h0
    exact absurd h0 (by omega)

/-! ### Segment assembly: the chains partition the recorded pairs -/

/-- Skipping a read entry. -/
theorem unreadList_cons_true (pr : PPair) (prs : List PPair) (rs : List Bool) :
    unreadList (pr :: prs) (true :: rs) = unreadList prs rs := rfl

/-- Keeping an unread entry. -/
theorem unreadList_cons_false (pr : PPair) (prs : List PPair) (rs : List Bool) :
    unreadList (pr :: prs) (false :: rs) = pr :: unreadList prs rs := rfl

/-- Unread count ignores read entries. -/
theorem unreadCount_cons_true (rs : List Bool) :
    unreadCount (true :: rs) = unreadCount rs := rfl

/-- Unread count counts unread entries. -/
theorem unreadCount_cons_false (rs : List Bool) :
    unreadCount (false :: rs) = unreadCount rs + 1 := rfl

/-- An all-false `readed` vector leaves every pair unread. -/
theorem unreadList_falses : ∀ (pairs : List PPair),
    unreadList pairs (pairs.map (fun _ => false)) = pairs := by
  intro pairs
  induction pairs with
  | nil => rfl
  | cons pr prs ih => rw [List.map_cons, unreadList_cons_false, ih]

/-- An all-false `readed` vector has every entry unread. -/
theorem unreadCount_falses : ∀ (pairs : List PPair),
    unreadCount (pairs.map (fun _ => false)) = pairs.length := by
  intro pairs
  induction pairs with
  | nil => rfl
  | cons pr prs ih => rw [List.map_cons, unreadCount_cons_false, ih, List.length_cons]

/-- Unfolding one extension scan past a read entry. -/
theorem scanExtend_cons_true (pr : PPair) (prs : List PPair) (rs : List Bool)
    (seg : List PPair) :
    scanExtend (pr :: prs) (true :: rs) seg =
      (scanExtend prs rs seg).map (fun q => (true :: q.1, q.2)) := rfl

/-- Unfolding one extension scan at an unread entry. -/
theorem scanExtend_cons_false (pr : PPair) (prs : List PPair) (rs : List Bool)
    (seg : List PPair) :
    scanExtend (pr :: prs) (false :: rs) seg =
      if pr.1 = (seg.getLastD default).2 then some (true :: rs, seg ++ [pr])
      else if pr.2 = (seg.headD default).1 then some (true :: rs, pr :: seg)
      else (scanExtend prs rs seg).map (fun q => (false :: q.1, q.2)) := rfl

/-- A successful extension scan moves exactly one unread pair into the
segment. -/
theorem scanExtend_some : ∀ (pairs : List PPair) (rs : List Bool)
    (seg : List PPair) (rs' : List Bool) (seg' : List PPair),
    scanExtend pairs rs seg = some (rs', seg') →
    rs'.length = rs.length ∧ unreadCount rs = unreadCount rs' + 1 ∧
    ∃ pr, seg'.Perm (pr :: seg) ∧
      (pr :: unreadList pairs rs').Perm (unreadList pairs rs) := by
  intro pairs
  induction pairs with
  | nil => intro rs seg rs' seg' h; exact Option.noConfusion h
  | cons pr prs ih =>
    intro rs seg rs' seg' h
    match rs with
    | [] => exact Option.noConfusion h
    | r :: rs =>
      cases r with
      | true =>
        rw [scanExtend_cons_true] at h
        cases hin : scanExtend prs rs seg with
        | none => rw [hin] at h; exact Option.noConfusion h
        | some q =>
          rw [hin] at h
          have h' : some ((true :: q.1, q.2) : List Bool × List PPair) =
              some (rs', seg') := h
          injection h' with h2
          injection h2 with ha hb
          subst ha
          subst hb
          obtain ⟨l1, l2, pr₀, p1, p2⟩ := ih rs seg q.1 q.2 hin
          refine ⟨?_, ?_, pr₀, p1, ?_⟩
          · rw [List.length_cons, List.length_cons, l1]
          · rw [unreadCount_cons_true, unreadCount_cons_true]; exact l2
          · rw [unreadList_cons_true, unreadList_cons_true]; exact p2
      | false =>
        rw [scanExtend_cons_false] at h
        by_cases h1 : pr.1 = (seg.getLastD default).2
        · rw [if_pos h1] at h
          injection h with h2
          injection h2 with ha hb
          subst ha
          subst hb
          refine ⟨rfl, rfl, pr, List.perm_append_singleton pr seg, ?_⟩
          rw [unreadList_cons_true, unreadList_cons_false]
        · rw [if_neg h1] at h
          by_cases h2c : pr.2 = (seg.headD default).1
          · rw [if_pos h2c] at h
            injection h with h2
            injection h2 with ha hb
            subst ha
            subst hb
            refine ⟨rfl, rfl, pr, List.Perm.refl _, ?_⟩
            rw [unreadList_cons_true, unreadList_cons_false]
          · rw [if_neg h2c] at h
            cases hin : scanExtend prs rs seg with
            | none => rw [hin] at h; exact Option.noConfusion h
            | some q =>
              rw [hin] at h
              have h' : some ((false :: q.1, q.2) : List Bool × List PPair) =
                  some (rs', seg') := h
              injection h' with h2
              injection h2 with ha hb
              subst ha
              subst hb
              obtain ⟨l1, l2, pr₀, p1, p2⟩ := ih rs seg q.1 q.2 hin
              refine ⟨?_, ?_, pr₀, p1, ?_⟩
              · rw [List.length_cons, List.length_cons, l1]
              · rw [unreadCount_cons_false, unreadCount_cons_false]; omega
              · rw [unreadList_cons_false, unreadList_cons_false]
                exact (List.Perm.swap pr pr₀ _).trans (List.Perm.cons pr p2)

/-- Unfolding one seeding scan past a read entry. -/
theorem seedSeg_cons_true (pr : PPair) (prs : List PPair) (rs : List Bool) :
    seedSeg (pr :: prs) (true :: rs) =
      (seedSeg prs rs).map (fun q => (true :: q.1, q.2)) := rfl

/-- Unfolding one seeding scan at an unread entry. -/
theorem seedSeg_cons_false (pr : PPair) (prs : List PPair) (rs : List Bool) :
    seedSeg (pr :: prs) (false :: rs) = some (true :: rs, pr) := rfl

/-- Seeding fails exactly when no pair is unread. -/
theorem seedSeg_none : ∀ (pairs : List PPair) (rs : List Bool),
    seedSeg pairs rs = none → unreadList pairs rs = [] := by
  intro pairs
  induction pairs with
  | nil => intro rs _; rfl
  | cons pr prs ih =>
    intro rs h
    match rs with
    | [] => rfl
    | r :: rs =>
      cases r with
      | true =>
        rw [unreadList_cons_true]
        rw [seedSeg_cons_true] at h
        cases hin : seedSeg prs rs with
        | none => exact ih rs hin
        | some q => rw [hin] at h; exact Option.noConfusion h
      | false =>
        rw [seedSeg_cons_false] at h
        exact Option.noConfusion h

/-- A successful seeding takes the first unread pair. -/
theorem seedSeg_some : ∀ (pairs : List PPair) (rs rs' : List Bool) (pr : PPair),
    seedSeg pairs rs = some (rs', pr) →
    rs'.length = rs.length ∧ unreadCount rs = unreadCount rs' + 1 ∧
    pr :: unreadList pairs rs' = unreadList pairs rs := by
  intro pairs
  induction pairs with
  | nil => intro rs rs' pr h; exact Option.noConfusion h
  | cons p0 prs ih =>
    intro rs rs' pr h
    match rs with
    | [] => exact Option.noConfusion h
    | r :: rs =>
      cases r with
      | true =>
        rw [seedSeg_cons_true] at h
        cases hin : seedSeg prs rs with
        | none => rw [hin] at h; exact Option.noConfusion h
        | some q =>
          rw [hin] at h
          have h' : some ((true :: q.1, q.2) : List Bool × PPair) =
              some (rs', pr) := h
          injection h' with h2
          injection h2 with ha hb
          subst ha
          subst hb
          obtain ⟨l1, l2, l3⟩ := ih rs q.1 q.2 hin
          refine ⟨?_, ?_, ?_⟩
          · rw [List.length_cons, List.length_cons, l1]
          · rw [unreadCount_cons_true, unreadCount_cons_true]; exact l2
          · rw [unreadList_cons_true, unreadList_cons_true]; exact l3
      | false =>
        rw [seedSeg_cons_false] at h
        injection h with h2
        injection h2 with ha hb
        subst ha
        subst hb
        refine ⟨rfl, rfl, ?_⟩
        rw [unreadList_cons_true, unreadList_cons_false]

/-- The extension loop stops when no pair matches. -/
theorem extendLoop_none (f : ℕ) (pairs : List PPair) (rs : List Bool)
    (seg : List PPair) (hs : scanExtend pairs rs seg = none) :
    extendLoop (f + 1) pairs rs seg = (rs, seg) := by
  simp only [extendLoop, hs]

/-- The extension loop recurses on a match. -/
theorem extendLoop_some (f : ℕ) (pairs : List PPair) (rs : List Bool)
    (seg : List PPair) (rs' : List Bool) (seg' : List PPair)
    (hs : scanExtend pairs rs seg = some (rs', seg')) :
    extendLoop (f + 1) pairs rs seg = extendLoop f pairs rs' seg' := by
  simp only [extendLoop, hs]

/-- The extension loop only moves pairs from the unread pool into the
segment: the multiset `segment ++ unread` is invariant. -/
theorem extendLoop_perm : ∀ (f : ℕ) (pairs : List PPair) (rs : List Bool)
    (seg : List PPair), unreadCount rs ≤ f →
    ((extendLoop f pairs rs seg).2 ++
      unreadList pairs (extendLoop f pairs rs seg).1).Perm
      (seg ++ unreadList pairs rs) ∧
    (extendLoop f pairs rs seg).1.length = rs.length ∧
    unreadCount (extendLoop f pairs rs seg).1 ≤ unreadCount rs := by
  intro f
  induction f with
  | zero => intro pairs rs seg _; exact ⟨List.Perm.refl _, rfl, le_refl _⟩
  | succ f ih =>
    intro pairs rs seg hc
    cases hs : scanExtend pairs rs seg with
    | none =>
      rw [extendLoop_none f pairs rs seg hs]
      exact ⟨List.Perm.refl _, rfl, le_refl _⟩
    | some q =>
      have hs' : scanExtend pairs rs seg = some (q.1, q.2) := hs
      rw [extendLoop_some f pairs rs seg q.1 q.2 hs']
      obtain ⟨l1, l2, pr, p1, p2⟩ := scanExtend_some pairs rs seg q.1 q.2 hs'
      obtain ⟨e1, e2, e3⟩ := ih pairs q.1 q.2 (by omega)
      refine ⟨?_, by rw [e2, l1], by omega⟩
      refine e1.trans ?_
      refine ((p1.append_right (unreadList pairs q.1)).trans ?_)
      exact List.perm_middle.symm.trans (List.Perm.append_left seg p2)

/-- The segment loop stops when everything is read. -/
theorem segsLoop_none (f : ℕ) (pairs : List PPair) (rs : List Bool)
    (hs : seedSeg pairs rs = none) : segsLoop (f + 1) pairs rs = [] := by
  simp only [segsLoop, hs]

/-- The segment loop seeds and extends on an unread pair. -/
theorem segsLoop_some (f : ℕ) (pairs : List PPair) (rs rs' : List Bool)
    (seed : PPair) (hs : seedSeg pairs rs = some (rs', seed)) :
    segsLoop (f + 1) pairs rs =
      (extendLoop (pairs.length + 1) pairs rs' [seed]).2 ::
        segsLoop f pairs (extendLoop (pairs.length + 1) pairs rs' [seed]).1 := by
  simp only [segsLoop, hs]

/-- The segments assembled for one generation are a permutation of that
generation's unread pairs. -/
theorem segsLoop_perm : ∀ (f : ℕ) (pairs : List PPair) (rs : List Bool),
    unreadCount rs < f → rs.length = pairs.length →
    ((segsLoop f pairs rs).flatten).Perm (unreadList pairs rs) := by
  intro f
  induction f with
  | zero => intro pairs rs hc _; exact absurd hc (Nat.not_lt_zero _)
  | succ f ih =>
    intro pairs rs hc hl
    cases hs : seedSeg pairs rs with
    | none =>
      rw [segsLoop_none f pairs rs hs, seedSeg_none pairs rs hs]
      exact List.Perm.refl _
    | some q =>
      have hs' : seedSeg pairs rs = some (q.1, q.2) := hs
      rw [segsLoop_some f pairs rs q.1 q.2 hs']
      obtain ⟨l1, l2, l3⟩ := seedSeg_some pairs rs q.1 q.2 hs'
      have hub : unreadCount rs ≤ rs.length :=
        List.length_filter_le _ rs
      have hcnt : unreadCount q.1 ≤ pairs.length + 1 := by omega
      obtain ⟨e1, e2, e3⟩ := extendLoop_perm (pairs.length + 1) pairs q.1 [q.2] hcnt
      have hIH := ih pairs (extendLoop (pairs.length + 1) pairs q.1 [q.2]).1
        (by omega) (by rw [e2, l1, hl])
      rw [List.flatten_cons]
      refine (List.Perm.append_left _ hIH).trans ?_
      refine e1.trans ?_
      rw [List.singleton_append, l3]

/-- Flattening commutes with mapping inside the inner lists. -/
theorem flatten_map_map {α β : Type} (f : α → β) : ∀ (L : List (List α)),
    (L.map (fun l => l.map f)).flatten = L.flatten.map f := by
  intro L
  induction L with
  | nil => rfl
  | cons l ls ih =>
    rw [List.map_cons, List.flatten_cons, List.flatten_cons, List.map_append, ih]

/-- Appending a pair to its grade's group only adds that pair to the flat
pair pool. -/
theorem addToGroup_perm : ∀ (gs : List (ℕ × List PPair)) (k : ℕ) (pr : PPair),
    (((addToGroup gs k pr).map (fun x => x.2)).flatten).Perm
      (pr :: (gs.map (fun x => x.2)).flatten) := by
  intro gs
  induction gs with
  | nil => intro k pr; exact List.Perm.refl _
  | cons g gs ih =>
    intro k pr
    obtain ⟨k', l⟩ := g
    have he : addToGroup ((k', l) :: gs) k pr =
        if k' = k then (k', l ++ [pr]) :: gs
        else (k', l) :: addToGroup gs k pr := rfl
    by_cases hk : k' = k
    · rw [he, if_pos hk, List.map_cons, List.map_cons, List.flatten_cons,
        List.flatten_cons, List.append_assoc, List.singleton_append]
      exact List.perm_middle
    · rw [he, if_neg hk, List.map_cons, List.map_cons, List.flatten_cons,
        List.flatten_cons]
      refine (List.Perm.append_left l (ih k pr)).trans ?_
      exact List.perm_middle

/-- Grouping the recorded pairs by grade preserves the flat pair pool up to
permutation. -/
theorem groupPairs_fold_perm : ∀ (l : List PairRec) (gs : List (ℕ × List PPair)),
    (((l.foldl (fun gs kp => addToGroup gs kp.1 kp.2) gs).map
      (fun x => x.2)).flatten).Perm
      ((gs.map (fun x => x.2)).flatten ++ l.map (fun kp => kp.2)) := by
  intro l
  induction l with
  | nil =>
    intro gs
    rw [List.map_nil, List.append_nil]
    exact List.Perm.refl _
  | cons kp l ih =>
    intro gs
    rw [List.foldl_cons, List.map_cons]
    refine (ih (addToGroup gs kp.1 kp.2)).trans ?_
    refine ((addToGroup_perm gs kp.1 kp.2).append_right _).trans ?_
    exact List.perm_middle.symm

/-- The segment dictionary's pairs, flattened across generations and
segments, are a permutation of the original grouped pair pool. -/
theorem getAllSegments_perm : ∀ (groups : List (ℕ × List PPair)),
    ((((getAllSegments groups).map (fun x => x.2)).flatten).flatten).Perm
      ((groups.map (fun x => x.2)).flatten) := by
  intro groups
  induction groups with
  | nil => exact List.Perm.refl _
  | cons g gs ih =>
    have hseg : ((segsLoop (g.2.length + 1) g.2
        (g.2.map (fun _ => false))).flatten).Perm g.2 := by
      have := segsLoop_perm (g.2.length + 1) g.2 (g.2.map (fun _ => false))
        (by rw [unreadCount_falses]; omega) (by rw [List.length_map])
      rw [unreadList_falses] at this
      exact this
    rw [getAllSegments, List.map_cons, List.map_cons, List.flatten_cons,
      List.flatten_append, List.map_cons, List.flatten_cons]
    exact List.Perm.append hseg ih

/-- **C4**: for an in-bounds masked root, the points of all segments across
all generations, together with the root point, are exactly the voxels
reachable from the root under 26-connectivity within the mask; the flattened
segment point list has no duplicate (no voxel appears in two segments, nor
twice in one), and the root itself never appears as a segment point. -/
theorem c4_partition_property (sh : Shape) (mask : Pt → Bool) (start : Pt)
    (hb : inBoundsB sh start = true) (hm : mask start = true) :
    (∀ p, (p = start ∨
        p ∈ segDicPoints (label_vessel_grades sh mask start).2) ↔
      Reach sh mask start p) ∧
    (segDicPoints (label_vessel_grades sh mask start).2).Nodup ∧
    start ∉ segDicPoints (label_vessel_grades sh mask start).2 := by
  have hperm : (segDicPoints (label_vessel_grades sh mask start).2).Perm
      ((labelPairs sh mask start).2.map (fun r => r.2.1)) := by
    rw [segDicPoints, flatten_map_map]
    refine ((getAllSegments_perm (groupPairs (labelPairs sh mask start).2)).map
      Prod.fst).trans ?_
    refine ((groupPairs_fold_perm (labelPairs sh mask start).2 []).map
      Prod.fst).trans ?_
    rw [List.map_nil, List.flatten_nil, List.nil_append, List.map_map]
    exact List.Perm.refl _
  obtain ⟨hA1, hA2, hA3⟩ := labelPairs_partition sh mask start
  refine ⟨?_, hperm.nodup_iff.mpr hA2, fun hmem => hA3 (hperm.mem_iff.mp hmem)⟩
  intro p
  rw [← hA1 p]
  exact or_congr Iff.rfl hperm.mem_iff

/-- **C4** (witness): the 3-voxel demo instance, with the two masked voxels
and the in-bounds masked root `(1,0,0)`. -/
theorem c4_witness :
    inBoundsB (3, 1, 1) (1, 0, 0) = true ∧ c3Mask (1, 0, 0) = true ∧
    ((∀ p, (p = ((1, 0, 0) : Pt) ∨
        p ∈ segDicPoints (label_vessel_grades (3, 1, 1) c3Mask (1, 0, 0)).2) ↔
      Reach (3, 1, 1) c3Mask (1, 0, 0) p) ∧
    (segDicPoints (label_vessel_grades (3, 1, 1) c3Mask (1, 0, 0)).2).Nodup ∧
    ((1, 0, 0) : Pt) ∉ segDicPoints (label_vessel_grades (3, 1, 1) c3Mask (1, 0, 0)).2) :=
  ⟨by decide, by decide,
    c4_partition_property (3, 1, 1) c3Mask (1, 0, 0) (by decide) (by decide)⟩

/-- **C1** (counterexample): for the annotated raw tree obtained by running
`assign_depth` on `cexRaw`, the canonical root line produced by
`create_new_tree_from_old` has 11 points while the exhaustive maximum
root-to-leaf voxel count is 15: the canonical backbone is not a longest
path of the raw tree. -/
theorem c1_counterexample_backbone_not_longest :
    ((assign_depth 100 cexRaw).bind
        (fun r => create_new_tree_from_old 100 r.1)).map
      (fun t => t.line.length) = some 11 ∧
    (assign_depth 100 cexRaw).map (fun r => maxRootToLeafCount 100 r.1) =
      some 15 ∧
    ¬ ((assign_depth 100 cexRaw).bind
        (fun r => create_new_tree_from_old 100 r.1)).map
      (fun t => t.line.length) =
      (assign_depth 100 cexRaw).map (fun r => maxRootToLeafCount 100 r.1) :=
  ⟨by decide, by decide, by decide⟩

end VesselTool
